import Mathlib

/-!
A shallow embedding of the story-point-poker session store
(`src/services/roomService.ts`, together with the socket-event handlers in
`src/server.ts`), and proofs of the spec's claims about it.

JavaScript `Map`s are embedded as association lists in insertion order:
`Map.prototype.set` updates an existing key in place and appends fresh keys at
the end; `values()` enumerates in insertion order.  Wall-clock time
(`new Date()`) is passed to every operation as an explicit `now : Nat`
parameter.  Generated identifiers (`uuidv4()`, `generateRoomId()`) are passed
as explicit parameters; where an operation relies on their freshness the
corresponding theorem or reachability rule carries that freshness hypothesis.
-/

namespace PokerStore

/-- JS `Map.prototype.get`: first entry with the given key, if any. -/
def mapGet {α : Type} : List (String × α) → String → Option α
  | [], _ => none
  | p :: ps, k => if p.1 = k then some p.2 else mapGet ps k

/-- JS `Map.prototype.has`. -/
def mapHas {α : Type} (m : List (String × α)) (k : String) : Bool :=
  (mapGet m k).isSome

/-- JS `Map.prototype.set`: update in place when the key exists, append
otherwise. -/
def mapSet {α : Type} (m : List (String × α)) (k : String) (v : α) :
    List (String × α) :=
  if mapHas m k then m.map (fun p => if p.1 = k then (k, v) else p)
  else m ++ [(k, v)]

/-- JS `Map.prototype.delete`. -/
def mapDelete {α : Type} : List (String × α) → String → List (String × α)
  | [], _ => []
  | p :: ps, k => if p.1 = k then mapDelete ps k else p :: mapDelete ps k

/-- `Array.from(map.values())`. -/
def mapValues {α : Type} (m : List (String × α)) : List α :=
  m.map Prod.snd

/-- `interface User` from `src/types`. -/
structure User where
  id : String
  name : String
  isAdmin : Bool
  estimate : Option String
  hasVoted : Bool
  joinedAt : Nat
  connected : Bool
  deriving DecidableEq

/-- `interface Story`. -/
structure Story where
  title : String
  description : String
  deriving DecidableEq

/-- `interface Room`; `users` is the participant map in insertion order. -/
structure Room where
  id : String
  name : String
  adminId : String
  users : List (String × User)
  story : Story
  votingRevealed : Bool
  estimationStarted : Bool
  createdAt : Nat
  lastActivity : Nat
  deriving DecidableEq

/-- The `RoomService` instance state: the room table and the two
socket-tracking maps (`userId -> socketId` and `socketId -> userId`). -/
structure RoomService where
  rooms : List (String × Room)
  userSockets : List (String × String)
  socketUsers : List (String × String)
  deriving DecidableEq

/-- `interface UserSummary`. -/
structure UserSummary where
  id : String
  name : String
  isAdmin : Bool
  hasVoted : Bool
  estimate : Option String
  connected : Bool
  deriving DecidableEq

/-- `interface RoomSummary`. -/
structure RoomSummary where
  id : String
  name : String
  userCount : Nat
  adminName : String
  story : Story
  votingRevealed : Bool
  estimationStarted : Bool
  createdAt : Nat
  lastActivity : Nat
  deriving DecidableEq

/-- The `summary` object inside `VotingResults`. -/
structure VotingSummary where
  totalVotes : Nat
  uniqueEstimates : List String
  mostCommon : Option String
  deriving DecidableEq

/-- `interface VotingResults`. -/
structure VotingResults where
  revealed : Bool
  votes : List UserSummary
  summary : VotingSummary
  deriving DecidableEq

/-- `createRoom` (roomService.ts:18-45); `roomId`/`userId` are the generated
identifiers and `now` the wall clock. -/
def createRoom (s : RoomService) (roomId userId name adminName : String)
    (now : Nat) : RoomService :=
  let admin : User :=
    { id := userId, name := adminName, isAdmin := true, estimate := none
      hasVoted := false, joinedAt := now, connected := true }
  let room : Room :=
    { id := roomId, name := name, adminId := userId, users := [(userId, admin)]
      story := { title := "", description := "" }, votingRevealed := false
      estimationStarted := false, createdAt := now, lastActivity := now }
  { s with rooms := mapSet s.rooms roomId room }

/-- The record returned by `joinRoom`. -/
structure JoinResult where
  success : Bool
  userId : Option String
  error : Option String
  deriving DecidableEq

/-- `joinRoom` (roomService.ts:47-77).  The JS truthiness test
`room.adminId && ...` is embedded as `room.adminId ≠ ""` (the field is a
string, so it is falsy exactly when empty). -/
def joinRoom (s : RoomService) (roomId userName : String) (isAdmin : Bool)
    (userId : String) (now : Nat) : RoomService × JoinResult :=
  match mapGet s.rooms roomId with
  | none => (s, { success := false, userId := none, error := some "Room not found" })
  | some room =>
    if isAdmin ∧ room.adminId ≠ "" ∧ mapHas room.users room.adminId then
      (s, { success := false, userId := none
            error := some "Admin already exists in this room" })
    else
      let user : User :=
        { id := userId, name := userName, isAdmin := isAdmin, estimate := none
          hasVoted := false, joinedAt := now, connected := true }
      let room' : Room :=
        { room with
            adminId := if isAdmin then userId else room.adminId
            users := mapSet room.users userId user
            lastActivity := now }
      ({ s with rooms := mapSet s.rooms roomId room' },
       { success := true, userId := some userId, error := none })

/-- `leaveRoom` (roomService.ts:79-106). -/
def leaveRoom (s : RoomService) (roomId userId : String) (now : Nat) :
    RoomService × Bool :=
  match mapGet s.rooms roomId with
  | none => (s, false)
  | some room =>
    match mapGet room.users userId with
    | none => (s, false)
    | some user =>
      let remaining := mapDelete room.users userId
      let room1 : Room := { room with users := remaining, lastActivity := now }
      let room2 : Room :=
        if user.isAdmin then
          match remaining with
          | [] => room1
          | (k0, u0) :: _ =>
            { room1 with
                users := mapSet room1.users k0 { u0 with isAdmin := true }
                adminId := u0.id }
        else room1
      if room2.users.isEmpty then
        ({ s with rooms := mapDelete s.rooms roomId }, true)
      else
        ({ s with rooms := mapSet s.rooms roomId room2 }, true)

/-- `getRoom` (roomService.ts:108-114): refreshes `lastActivity` when the room
exists and returns the (refreshed) room. -/
def getRoom (s : RoomService) (roomId : String) (now : Nat) :
    RoomService × Option Room :=
  match mapGet s.rooms roomId with
  | none => (s, none)
  | some room =>
    let room' := { room with lastActivity := now }
    ({ s with rooms := mapSet s.rooms roomId room' }, some room')

/-- `getRoomSummary` (roomService.ts:116-134); `admin?.name || 'Unknown'`
falls back to `"Unknown"` when the admin is missing or has an empty name. -/
def getRoomSummary (s : RoomService) (roomId : String) (now : Nat) :
    RoomService × Option RoomSummary :=
  match getRoom s roomId now with
  | (s', none) => (s', none)
  | (s', some room) =>
    let adminName :=
      match mapGet room.users room.adminId with
      | some a => if a.name = "" then "Unknown" else a.name
      | none => "Unknown"
    (s', some
      { id := room.id, name := room.name, userCount := room.users.length
        adminName := adminName, story := room.story
        votingRevealed := room.votingRevealed
        estimationStarted := room.estimationStarted
        createdAt := room.createdAt, lastActivity := room.lastActivity })

/-- `updateStory` (roomService.ts:136-150). -/
def updateStory (s : RoomService) (roomId userId : String) (story : Story)
    (now : Nat) : RoomService × Bool :=
  match mapGet s.rooms roomId with
  | none => (s, false)
  | some room =>
    match mapGet room.users userId with
    | none => (s, false)
    | some user =>
      if user.isAdmin then
        let room' : Room := { room with story := story, lastActivity := now }
        ({ s with rooms := mapSet s.rooms roomId room' }, true)
      else (s, false)

/-- `submitVote` (roomService.ts:152-178). -/
def submitVote (s : RoomService) (roomId userId estimate : String)
    (now : Nat) : RoomService × Bool :=
  match mapGet s.rooms roomId with
  | none => (s, false)
  | some room =>
    match mapGet room.users userId with
    | none => (s, false)
    | some user =>
      if room.votingRevealed then (s, false)
      else
        let user' : User :=
          if estimate = "" then { user with estimate := none, hasVoted := false }
          else { user with estimate := some estimate, hasVoted := true }
        let room' : Room :=
          { room with users := mapSet room.users userId user'
                      lastActivity := now }
        ({ s with rooms := mapSet s.rooms roomId room' }, true)

/-- `revealVotes` (roomService.ts:180-199). -/
def revealVotes (s : RoomService) (roomId userId : String) (now : Nat) :
    RoomService × Bool :=
  match mapGet s.rooms roomId with
  | none => (s, false)
  | some room =>
    match mapGet room.users userId with
    | none => (s, false)
    | some user =>
      if user.isAdmin then
        let room' : Room := { room with votingRevealed := true, lastActivity := now }
        ({ s with rooms := mapSet s.rooms roomId room' }, true)
      else (s, false)

/-- Clear one participant's vote (the body of the `forEach` in
`resetVoting` and in the `start-estimation` handler). -/
def clearVote (u : User) : User :=
  { u with estimate := none, hasVoted := false }

/-- `resetVoting` (roomService.ts:201-222). -/
def resetVoting (s : RoomService) (roomId userId : String) (now : Nat) :
    RoomService × Bool :=
  match mapGet s.rooms roomId with
  | none => (s, false)
  | some room =>
    match mapGet room.users userId with
    | none => (s, false)
    | some user =>
      if user.isAdmin then
        let room' : Room :=
          { room with
              users := room.users.map (fun p => (p.1, clearVote p.2))
              votingRevealed := false, estimationStarted := false
              lastActivity := now }
        ({ s with rooms := mapSet s.rooms roomId room' }, true)
      else (s, false)

/-- The `UserSummary` built for one participant by `getVotingResults` and
`getUsersInRoom`: the vote value is exposed only when the room is revealed. -/
def userSummaryOf (revealed : Bool) (u : User) : UserSummary :=
  { id := u.id, name := u.name, isAdmin := u.isAdmin, hasVoted := u.hasVoted
    estimate := if revealed then u.estimate else none
    connected := u.connected }

/-- `votedUsers` (roomService.ts:239): participants whose `hasVoted` is set. -/
def votedUsersOf (room : Room) : List User :=
  (mapValues room.users).filter (fun u => u.hasVoted)

/-- `estimates` (roomService.ts:240): the voted participants' estimates with
`filter(Boolean)`, which drops both `undefined` and the empty string. -/
def estimatesOf (room : Room) : List String :=
  (((votedUsersOf room).map User.estimate).filterMap id).filter
    (fun e => decide (e ≠ ""))

/-- One step of the `reduce` building `estimateCounts` (roomService.ts:241-244):
`acc[estimate] = (acc[estimate] || 0) + 1`, keys in first-occurrence order. -/
def insertCount (acc : List (String × Nat)) (e : String) : List (String × Nat) :=
  match mapGet acc e with
  | some n => mapSet acc e (n + 1)
  | none => acc ++ [(e, 1)]

/-- `estimateCounts` (roomService.ts:241-244). -/
def estimateCountsOf (room : Room) : List (String × Nat) :=
  (estimatesOf room).foldl insertCount []

/-- The count recorded for a key (`estimateCounts[k] || 0`). -/
def countOf (counts : List (String × Nat)) (k : String) : Nat :=
  (mapGet counts k).getD 0

/-- Decimal value of a digit string. -/
def strToNat (s : String) : Nat :=
  s.data.foldl (fun n c => n * 10 + (c.toNat - 48)) 0

/-- Whether a string is a canonical JS array index (an unsigned decimal
integer below 2^32 - 1 with no leading zero): such object keys are enumerated
first, in ascending numeric order. -/
def isArrayIndexStr (s : String) : Bool :=
  match s.data with
  | [] => false
  | c :: cs =>
    (c :: cs).all (fun d => d.isDigit) && (c ≠ '0' || cs.isEmpty)
      && strToNat s < 4294967295

/-- Insertion into a list kept ascending by numeric value. -/
def insertAsc (x : String) : List String → List String
  | [] => [x]
  | y :: ys => if strToNat x ≤ strToNat y then x :: y :: ys else y :: insertAsc x ys

/-- Sort a list of canonical-index strings in ascending numeric order. -/
def sortAsc (l : List String) : List String :=
  l.foldr insertAsc []

/-- `Object.keys` enumeration order for a record whose insertion order is the
order of the association list: array-index keys first in ascending numeric
order, then the remaining keys in insertion order. -/
def objectKeys (m : List (String × Nat)) : List String :=
  let ks := m.map Prod.fst
  sortAsc (ks.filter isArrayIndexStr) ++ ks.filter (fun k => !isArrayIndexStr k)

/-- The `reduce` choosing `mostCommon` (roomService.ts:246-250):
`estimateCounts[a] > estimateCounts[b] ? a : b`, so a tie keeps `b` and the
last key of the enumeration attaining the maximum wins. -/
def pickMost (counts : List (String × Nat)) (k : String) (ks : List String) : String :=
  ks.foldl (fun a b => if countOf counts a > countOf counts b then a else b) k

/-- `mostCommon` (roomService.ts:246-250). -/
def mostCommonOf (room : Room) : Option String :=
  if (estimatesOf room).length > 0 then
    match objectKeys (estimateCountsOf room) with
    | [] => none
    | k :: ks => some (pickMost (estimateCountsOf room) k ks)
  else none

/-- Deduplication keeping the first occurrence of each value, skipping
values already seen. -/
def dedupFirstAux (seen : List String) : List String → List String
  | [] => []
  | x :: xs =>
    if x ∈ seen then dedupFirstAux seen xs
    else x :: dedupFirstAux (x :: seen) xs

/-- `Array.from(new Set(estimates))`: deduplication keeping the first
occurrence of each value, in order. -/
def dedupFirst (l : List String) : List String :=
  dedupFirstAux [] l

/-- `getVotingResults` (roomService.ts:224-261).  The source never touches
`lastActivity` here; the returned store is unchanged.  `now` is the wall clock
at the time of the call (unused, because the source reads no clock here). -/
def getVotingResults (s : RoomService) (roomId : String) (_now : Nat) :
    RoomService × Option VotingResults :=
  match mapGet s.rooms roomId with
  | none => (s, none)
  | some room =>
    (s, some
      { revealed := room.votingRevealed
        votes := (mapValues room.users).map (userSummaryOf room.votingRevealed)
        summary :=
          { totalVotes := (votedUsersOf room).length
            uniqueEstimates := dedupFirst (estimatesOf room)
            mostCommon := mostCommonOf room } })

/-- `getUsersInRoom` (roomService.ts:263-281).  Returns `[]` when the room is
absent; never touches `lastActivity` (store returned unchanged).  `now` is the
wall clock at the time of the call (unused: the source reads no clock here). -/
def getUsersInRoom (s : RoomService) (roomId : String) (_now : Nat) :
    RoomService × List UserSummary :=
  match mapGet s.rooms roomId with
  | none => (s, [])
  | some room =>
    (s, (mapValues room.users).map (userSummaryOf room.votingRevealed))

/-- The room-list traversal of `updateUserConnectionStatus`
(roomService.ts:306-317): update the first room containing the user and stop
(`break`). -/
def updConnRooms (userId : String) (connected : Bool) (now : Nat) :
    List (String × Room) → List (String × Room)
  | [] => []
  | (k, r) :: rest =>
    match mapGet r.users userId with
    | some u =>
      (k, { r with users := mapSet r.users userId { u with connected := connected }
                   lastActivity := now }) :: rest
    | none => (k, r) :: updConnRooms userId connected now rest

/-- `updateUserConnectionStatus` (roomService.ts:306-317). -/
def updateUserConnectionStatus (s : RoomService) (userId : String)
    (connected : Bool) (now : Nat) : RoomService :=
  { s with rooms := updConnRooms userId connected now s.rooms }

/-- `setUserSocket` (roomService.ts:284-291): record the binding in both maps
and mark the user connected. -/
def setUserSocket (s : RoomService) (userId socketId : String) (now : Nat) :
    RoomService :=
  let s1 := { s with userSockets := mapSet s.userSockets userId socketId
                     socketUsers := mapSet s.socketUsers socketId userId }
  updateUserConnectionStatus s1 userId true now

/-- `removeUserSocket` (roomService.ts:293-304): drop both map entries and mark
the user disconnected unconditionally. -/
def removeUserSocket (s : RoomService) (socketId : String) (now : Nat) :
    RoomService × Option String :=
  match mapGet s.socketUsers socketId with
  | none => (s, none)
  | some userId =>
    let s1 := { s with userSockets := mapDelete s.userSockets userId
                       socketUsers := mapDelete s.socketUsers socketId }
    (updateUserConnectionStatus s1 userId false now, some userId)

/-- `getUserBySocketId` (roomService.ts:319-321). -/
def getUserBySocketId (s : RoomService) (socketId : String) : Option String :=
  mapGet s.socketUsers socketId

/-- Modelled from the spec: `removeSocketMapping` is called by the disconnect
handler in `src/server.ts` but is not defined in the sources under `src/`.
Per the spec's connection-binding lifecycle it removes that one channel's
binding only ("removed when that specific channel closes"), without touching
the participant's connected flag. -/
def removeSocketMapping (s : RoomService) (socketId : String) : RoomService :=
  match mapGet s.socketUsers socketId with
  | none => s
  | some userId =>
    { s with
        socketUsers := mapDelete s.socketUsers socketId
        userSockets :=
          if mapGet s.userSockets userId = some socketId then
            mapDelete s.userSockets userId
          else s.userSockets }

/-- Modelled from the spec: `hasActiveSocket` is called by the disconnect
handler in `src/server.ts` but is not defined in the sources under `src/`.
Per the spec, a participant "is connected iff at least one channel identifier
maps to them", so it checks for any remaining channel bound to the user. -/
def hasActiveSocket (s : RoomService) (userId : String) : Bool :=
  s.socketUsers.any (fun p => p.2 = userId)

/-- Modelled from the spec: `markUserDisconnected` is called by the disconnect
handler in `src/server.ts` but is not defined in the sources under `src/`.
It flips the participant's connected flag to false. -/
def markUserDisconnected (s : RoomService) (userId : String) (now : Nat) :
    RoomService :=
  updateUserConnectionStatus s userId false now

/-- The `disconnect` handler (server.ts:275-296): remove the closing channel's
binding, then mark the participant disconnected only when no other channel
remains bound to them. -/
def disconnectHandler (s : RoomService) (socketId : String) (now : Nat) :
    RoomService :=
  match getUserBySocketId s socketId with
  | none => s
  | some userId =>
    let s1 := removeSocketMapping s socketId
    if hasActiveSocket s1 userId then s1
    else markUserDisconnected s1 userId now

/-- The `start-estimation` handler (server.ts:138-175): fetches the room via
`getRoom` (which refreshes `lastActivity`), requires an admin caller, then
clears every vote, sets `votingRevealed := false` and
`estimationStarted := true`. -/
def startEstimation (s : RoomService) (roomId userId : String) (now : Nat) :
    RoomService × Bool :=
  match getRoom s roomId now with
  | (s1, none) => (s1, false)
  | (s1, some room) =>
    match mapGet room.users userId with
    | none => (s1, false)
    | some user =>
      if user.isAdmin then
        let room' : Room :=
          { room with
              users := room.users.map (fun p => (p.1, clearVote p.2))
              votingRevealed := false, estimationStarted := true }
        ({ s1 with rooms := mapSet s1.rooms roomId room' }, true)
      else (s1, false)

/-! ### Sample stores and claim-specific definitions -/

/-- The store before any operation. -/
def emptyStore : RoomService := ⟨[], [], []⟩

/-- Room `R1` created by admin Alice. -/
def sAlice : RoomService := createRoom emptyStore "R1" "u1" "Sprint" "Alice" 0

/-- Bob has joined `R1` as a non-admin. -/
def sAliceBob : RoomService := (joinRoom sAlice "R1" "Bob" false "u2" 1).1

/-- Bob voted `"5"`, then Alice voted `"8"`. -/
def sVotes : RoomService :=
  (submitVote (submitVote sAliceBob "R1" "u2" "5" 2).1 "R1" "u1" "8" 3).1

/-- Alice revealed the votes. -/
def sRevealed : RoomService := (revealVotes sVotes "R1" "u1" 4).1

/-- Every entry of a participants projection has an absent vote value. -/
def allEstimatesHidden (l : List UserSummary) : Prop :=
  ∀ u ∈ l, u.estimate = none

/-- Two participants that agree on everything except the stored vote value. -/
def UserSameButVote (u v : User) : Prop :=
  u.id = v.id ∧ u.name = v.name ∧ u.isAdmin = v.isAdmin ∧
  u.hasVoted = v.hasVoted ∧ u.joinedAt = v.joinedAt ∧ u.connected = v.connected

/-- Two rooms that differ only in their participants' stored vote values. -/
def RoomSameButVotes (r t : Room) : Prop :=
  r.id = t.id ∧ r.name = t.name ∧ r.adminId = t.adminId ∧
  List.Forall₂ (fun p q => p.1 = q.1 ∧ UserSameButVote p.2 q.2)
    r.users t.users ∧
  r.story = t.story ∧ r.votingRevealed = t.votingRevealed ∧
  r.estimationStarted = t.estimationStarted ∧ r.createdAt = t.createdAt ∧
  r.lastActivity = t.lastActivity

/-- Two stores that differ only in stored vote values. -/
def StoreSameButVotes (s t : RoomService) : Prop :=
  List.Forall₂ (fun p q => p.1 = q.1 ∧ RoomSameButVotes p.2 q.2)
    s.rooms t.rooms ∧
  s.userSockets = t.userSockets ∧ s.socketUsers = t.socketUsers

/-- The looked-up room, if present, has `revealed = false`. -/
def roomHidden (o : Option Room) : Bool :=
  match o with
  | none => true
  | some r => !r.votingRevealed

/-- Bob voted `"5"`; votes not yet revealed. -/
def sHid5 : RoomService := (submitVote sAliceBob "R1" "u2" "5" 2).1

/-- Same store as [sHid5] except Bob's stored vote is `"8"`. -/
def sHid8 : RoomService := (submitVote sAliceBob "R1" "u2" "8" 2).1

/-- `o` is the last element of `keys` attaining the maximal count under `c`
(`none` exactly when `keys` is empty). -/
def IsLastMax (c : String → Nat) (keys : List String) : Option String → Prop
  | none => keys = []
  | some m => ∃ l1 l2, keys = l1 ++ m :: l2 ∧
      (∀ x ∈ l1, c x ≤ c m) ∧ (∀ x ∈ l2, c x < c m)

/-- A revealed room with a vote tie: Alice voted `"5"` first, Bob `"8"`. -/
def roomTie : Room :=
  { id := "R1", name := "Sprint", adminId := "u1"
    users :=
      [("u1", { id := "u1", name := "Alice", isAdmin := true
                estimate := some "5", hasVoted := true, joinedAt := 0
                connected := true }),
       ("u2", { id := "u2", name := "Bob", isAdmin := false
                estimate := some "8", hasVoted := true, joinedAt := 1
                connected := true })]
    story := { title := "", description := "" }, votingRevealed := true
    estimationStarted := true, createdAt := 0, lastActivity := 1 }

/-- A store holding only [roomTie]. -/
def sTie : RoomService := ⟨[("R1", roomTie)], [], []⟩

/-- Per-participant well-formedness: the record's `id` equals its map key, the
key is a non-empty (generated) identifier, the voted flag tracks presence of a
vote, and a present vote is non-empty. -/
def UserOk (k : String) (u : User) : Prop :=
  u.id = k ∧ k ≠ "" ∧ u.hasVoted = u.estimate.isSome ∧ u.estimate ≠ some ""

/-- Participant-map well-formedness: non-empty, distinct keys, every entry
[UserOk], the `adminId` entry exists with the admin flag set, and every entry
whose admin flag is set sits at key `adminId`. -/
def UsersOk (adminId : String) (users : List (String × User)) : Prop :=
  users ≠ [] ∧ (users.map Prod.fst).Nodup ∧
  (∀ p ∈ users, UserOk p.1 p.2) ∧
  (∃ a, mapGet users adminId = some a ∧ a.isAdmin = true) ∧
  (∀ p ∈ users, p.2.isAdmin = true → p.1 = adminId)

/-- A room whose participant map is well-formed for its `adminId`. -/
def RoomOk (r : Room) : Prop := UsersOk r.adminId r.users

/-- Every room in the store is well-formed. -/
def StoreOk (s : RoomService) : Prop := ∀ p ∈ s.rooms, RoomOk p.2

/-- `userId` does not occur in any room: the freshness `uuidv4()` provides. -/
def freshUser (s : RoomService) (userId : String) : Prop :=
  ∀ p ∈ s.rooms, mapGet p.2.users userId = none

/-- The states reachable from the empty store by store operations.  Generated
identifiers carry the freshness the source obtains from `generateRoomId`
(collision-checked) and `uuidv4()`. -/
inductive Reachable : RoomService → Prop where
  | init : Reachable ⟨[], [], []⟩
  | createRoom {s roomId userId name adminName now} : Reachable s →
      mapGet s.rooms roomId = none → userId ≠ "" →
      Reachable (createRoom s roomId userId name adminName now)
  | joinRoom {s roomId userName isAdmin userId now} : Reachable s →
      freshUser s userId → userId ≠ "" →
      Reachable (joinRoom s roomId userName isAdmin userId now).1
  | leaveRoom {s roomId userId now} : Reachable s →
      Reachable (leaveRoom s roomId userId now).1
  | updateStory {s roomId userId story now} : Reachable s →
      Reachable (updateStory s roomId userId story now).1
  | submitVote {s roomId userId est now} : Reachable s →
      Reachable (submitVote s roomId userId est now).1
  | revealVotes {s roomId userId now} : Reachable s →
      Reachable (revealVotes s roomId userId now).1
  | resetVoting {s roomId userId now} : Reachable s →
      Reachable (resetVoting s roomId userId now).1
  | startEstimation {s roomId userId now} : Reachable s →
      Reachable (startEstimation s roomId userId now).1
  | getRoom {s roomId now} : Reachable s →
      Reachable (getRoom s roomId now).1
  | setUserSocket {s userId socketId now} : Reachable s →
      Reachable (setUserSocket s userId socketId now)
  | removeUserSocket {s socketId now} : Reachable s →
      Reachable (removeUserSocket s socketId now).1

/-- C1's property: every stored room is non-empty, has exactly one
participant with the admin flag, and `adminId` resolves to that participant
(whose `id` equals `adminId`). -/
def AdminProp (s : RoomService) : Prop :=
  ∀ p ∈ s.rooms,
    p.2.users ≠ [] ∧
    (p.2.users.filter (fun q => q.2.isAdmin)).length = 1 ∧
    (mapGet p.2.users p.2.adminId).map
      (fun a => a.isAdmin && (a.id == p.2.adminId)) = some true

/-- C10's property: each participant's voted flag holds iff a vote value is
present, and a present vote value is non-empty. -/
def VoteProp (s : RoomService) : Prop :=
  ∀ p ∈ s.rooms, ∀ q ∈ p.2.users,
    q.2.hasVoted = q.2.estimate.isSome ∧ q.2.estimate ≠ some ""

/-- A channel event: a bind (`setUserSocket`, from the `join-room` handler)
or a channel close (the `disconnect` handler). -/
inductive ConnOp where
  | bind (userId socketId : String)
  | unbind (socketId : String)

/-- Apply one channel event at time `now`. -/
def applyConnOp (s : RoomService) (now : Nat) : ConnOp → RoomService
  | .bind u c => setUserSocket s u c now
  | .unbind c => disconnectHandler s c now

/-- Apply a sequence of channel events. -/
def applyConnOps (s : RoomService) (now : Nat) : List ConnOp → RoomService
  | [] => s
  | op :: ops => applyConnOps (applyConnOp s now op) now ops

/-- A sequence is good when no bind re-binds a channel identifier that is
currently bound to a different participant (transport channel ids are unique,
so this holds for real traces). -/
def goodOps (s : RoomService) (now : Nat) : List ConnOp → Bool
  | [] => true
  | .bind u c :: ops =>
    (match mapGet s.socketUsers c with
     | none => true
     | some u2 => u2 == u) && goodOps (applyConnOp s now (.bind u c)) now ops
  | .unbind c :: ops => goodOps (applyConnOp s now (.unbind c)) now ops

/-- The claim's invariant: every stored participant's connected flag is true
iff at least one channel identifier is currently bound to them. -/
def ConnInv (s : RoomService) : Prop :=
  ∀ p ∈ s.rooms, ∀ q ∈ p.2.users,
    q.2.connected = hasActiveSocket s q.1

/-- Well-formedness of the registries: distinct room keys, each participant
id in at most one room, distinct participant keys per room, and distinct
channel keys. -/
def RoomsWF (s : RoomService) : Prop :=
  (s.rooms.map Prod.fst).Nodup ∧
  (∀ p ∈ s.rooms, ∀ q ∈ p.2.users, ∀ p2 ∈ s.rooms,
    mapHas p2.2.users q.1 = true → p2.1 = p.1) ∧
  (∀ p ∈ s.rooms, (p.2.users.map Prod.fst).Nodup) ∧
  (s.socketUsers.map Prod.fst).Nodup

/-- A store with Alice and Bob present, both disconnected, no channel
bound: the invariant holds. -/
def sConn0 : RoomService :=
  ⟨[("R1",
    { id := "R1", name := "Sprint", adminId := "u1"
      users :=
        [("u1", { id := "u1", name := "Alice", isAdmin := true
                  estimate := none, hasVoted := false, joinedAt := 0
                  connected := false }),
         ("u2", { id := "u2", name := "Bob", isAdmin := false
                  estimate := none, hasVoted := false, joinedAt := 1
                  connected := false })]
      story := { title := "", description := "" }, votingRevealed := false
      estimationStarted := false, createdAt := 0, lastActivity := 0 })],
   [], []⟩

instance (s : RoomService) : Decidable (ConnInv s) := by
  unfold ConnInv
  infer_instance

instance (s : RoomService) : Decidable (RoomsWF s) := by
  unfold RoomsWF
  infer_instance

/-! ### Association-list map lemmas -/

theorem mapGet_append {α : Type} (m1 m2 : List (String × α)) (k : String) :
    mapGet (m1 ++ m2) k =
      match mapGet m1 k with
      | some v => some v
      | none => mapGet m2 k := by
  induction m1 with
  | nil => simp [mapGet]
  | cons p ps ih =>
    rw [List.cons_append, mapGet, mapGet]
    split
    · rfl
    · exact ih

theorem mapGet_replace_self {α : Type} {m : List (String × α)} {k : String}
    (v : α) (h : mapHas m k = true) :
    mapGet (m.map (fun p => if p.1 = k then (k, v) else p)) k = some v := by
  induction m with
  | nil => simp [mapHas, mapGet] at h
  | cons p ps ih =>
    obtain ⟨a, b⟩ := p
    by_cases hk : a = k
    · simp [mapGet, hk]
    · simp only [List.map_cons]
      simp only [hk, if_false]
      rw [mapGet]
      simp only [hk, if_false]
      exact ih (by simpa [mapHas, mapGet, hk] using h)

theorem mapGet_replace_ne {α : Type} (m : List (String × α)) {k k' : String}
    (v : α) (h : k' ≠ k) :
    mapGet (m.map (fun p => if p.1 = k then (k, v) else p)) k' = mapGet m k' := by
  induction m with
  | nil => simp [mapGet]
  | cons p ps ih =>
    obtain ⟨a, b⟩ := p
    by_cases hk : a = k
    · subst hk
      rw [List.map_cons, if_pos rfl, mapGet, mapGet,
        if_neg (Ne.symm h), if_neg (Ne.symm h)]
      exact ih
    · simp only [List.map_cons, hk, if_false]
      rw [mapGet, mapGet]
      split
      · rfl
      · exact ih

@[simp] theorem mapGet_mapSet_self {α : Type} (m : List (String × α))
    (k : String) (v : α) : mapGet (mapSet m k v) k = some v := by
  rw [mapSet]
  split
  · next h => exact mapGet_replace_self v h
  · next h =>
    rw [mapGet_append]
    have : mapGet m k = none := by
      simp [mapHas] at h
      exact Option.eq_none_iff_forall_not_mem.mpr
        (fun v hv => by simp [h] at hv)
    rw [this]
    simp [mapGet]

@[simp] theorem mapGet_mapSet_ne {α : Type} (m : List (String × α))
    {k k' : String} (v : α) (h : k' ≠ k) :
    mapGet (mapSet m k v) k' = mapGet m k' := by
  rw [mapSet]
  split
  · exact mapGet_replace_ne m v h
  · rw [mapGet_append]
    cases hm : mapGet m k' with
    | some w => rfl
    | none => simp [mapGet, Ne.symm h]

@[simp] theorem mapGet_mapDelete_self {α : Type} (m : List (String × α))
    (k : String) : mapGet (mapDelete m k) k = none := by
  induction m with
  | nil => simp [mapDelete, mapGet]
  | cons p ps ih =>
    obtain ⟨a, b⟩ := p
    rw [mapDelete]
    split
    · exact ih
    · next hk => rw [mapGet]; simp only [hk, if_false]; exact ih

@[simp] theorem mapGet_mapDelete_ne {α : Type} (m : List (String × α))
    {k k' : String} (h : k' ≠ k) :
    mapGet (mapDelete m k) k' = mapGet m k' := by
  induction m with
  | nil => rfl
  | cons p ps ih =>
    obtain ⟨a, b⟩ := p
    rw [mapDelete]
    split
    · next hk =>
      subst hk
      rw [mapGet]
      simp only [Ne.symm h, if_false]
      exact ih
    · rw [mapGet, mapGet]
      split
      · rfl
      · exact ih

theorem mapGet_eq_some_mem {α : Type} {m : List (String × α)} {k : String}
    {v : α} (h : mapGet m k = some v) : (k, v) ∈ m := by
  induction m with
  | nil => simp [mapGet] at h
  | cons p ps ih =>
    obtain ⟨a, b⟩ := p
    by_cases hk : a = k
    · subst hk
      simp [mapGet] at h
      simp [h]
    · simp [mapGet, hk] at h
      exact List.mem_cons_of_mem _ (ih h)

theorem mem_mapSet {α : Type} {m : List (String × α)} {k : String} {v : α}
    {p : String × α} (h : p ∈ mapSet m k v) : p ∈ m ∨ p = (k, v) := by
  rw [mapSet] at h
  split at h
  · rcases List.mem_map.mp h with ⟨q, hq, hqe⟩
    by_cases hk : q.1 = k
    · rw [if_pos hk] at hqe
      exact Or.inr hqe.symm
    · rw [if_neg hk] at hqe
      exact Or.inl (hqe ▸ hq)
  · rcases List.mem_append.mp h with h' | h'
    · exact Or.inl h'
    · simp at h'
      exact Or.inr h'

theorem mem_mapDelete {α : Type} {m : List (String × α)} {k : String}
    {p : String × α} (h : p ∈ mapDelete m k) : p ∈ m ∧ p.1 ≠ k := by
  induction m with
  | nil => simp [mapDelete] at h
  | cons q qs ih =>
    obtain ⟨a, b⟩ := q
    rw [mapDelete] at h
    split at h
    · obtain ⟨hm, hne⟩ := ih h
      exact ⟨List.mem_cons_of_mem _ hm, hne⟩
    · next hk =>
      rcases List.mem_cons.mp h with heq | h'
      · subst heq
        exact ⟨List.mem_cons_self _ _, hk⟩
      · obtain ⟨hm, hne⟩ := ih h'
        exact ⟨List.mem_cons_of_mem _ hm, hne⟩

theorem mapHas_iff_mem_keys {α : Type} {m : List (String × α)} {k : String} :
    mapHas m k = true ↔ k ∈ m.map Prod.fst := by
  induction m with
  | nil => simp [mapHas, mapGet]
  | cons p ps ih =>
    obtain ⟨a, b⟩ := p
    by_cases hk : a = k
    · subst hk
      simp [mapHas, mapGet]
    · constructor
      · intro h
        have : mapHas ps k = true := by simpa [mapHas, mapGet, hk] using h
        exact List.mem_cons_of_mem _ (ih.mp this)
      · intro h
        rcases List.mem_cons.mp h with heq | h'
        · exact absurd heq.symm hk
        · have := ih.mpr h'
          simpa [mapHas, mapGet, hk] using this

/-- Keys of `mapSet` when the key is already present. -/
theorem keys_mapSet_of_has {α : Type} {m : List (String × α)} {k : String}
    (v : α) (h : mapHas m k = true) :
    (mapSet m k v).map Prod.fst = m.map Prod.fst := by
  rw [mapSet, if_pos h, List.map_map]
  apply List.map_congr_left
  intro p _
  by_cases hk : p.1 = k
  · simp [hk]
  · simp [hk]

/-- Keys of `mapSet` when the key is absent. -/
theorem keys_mapSet_of_not_has {α : Type} {m : List (String × α)} {k : String}
    (v : α) (h : mapHas m k = false) :
    (mapSet m k v).map Prod.fst = m.map Prod.fst ++ [k] := by
  rw [mapSet, if_neg (by simp [h]), List.map_append]
  rfl

/-- The keys of `mapDelete` form a sublist of the original keys. -/
theorem keys_mapDelete_sublist {α : Type} (m : List (String × α)) (k : String) :
    ((mapDelete m k).map Prod.fst).Sublist (m.map Prod.fst) := by
  induction m with
  | nil => simp [mapDelete]
  | cons p ps ih =>
    rw [mapDelete]
    split
    · exact ih.trans (List.sublist_cons_self _ _)
    · simpa using ih

/-! ### C3: the participants projection withholds votes before reveal -/

/-- C3: for every room with `revealed = false` and every participant in it,
the entry returned by `GetParticipantsProjection` (`getUsersInRoom`) has an
absent vote-value field, regardless of the participant's stored vote. -/
theorem getUsersInRoom_hides_unrevealed_votes (s : RoomService)
    (roomId : String) (now : Nat) (room : Room)
    (hroom : mapGet s.rooms roomId = some room)
    (hrev : room.votingRevealed = false) :
    allEstimatesHidden (getUsersInRoom s roomId now).2 := by
  intro u hu
  rw [getUsersInRoom, hroom] at hu
  simp only at hu
  rcases List.mem_map.mp hu with ⟨w, _, hw⟩
  rw [← hw, userSummaryOf, hrev]
  simp

/-- Witness for C3: in the store where both participants hold stored votes but
the room is not yet revealed, the projection exposes no estimate. -/
theorem getUsersInRoom_hides_unrevealed_votes_witness :
    allEstimatesHidden (getUsersInRoom sVotes "R1" 4).2 :=
  getUsersInRoom_hides_unrevealed_votes sVotes "R1" 4 _ rfl (by rfl)

/-! ### C4: submitVote semantics -/

/-- C4: `SubmitVote` returns false and leaves the store unchanged whenever the
room or participant is absent or the room is revealed; otherwise it returns
true, an empty-string estimate clears the vote, and any other estimate sets
`hasVoted` and stores the string verbatim. -/
theorem submitVote_spec (s : RoomService) (roomId userId est : String)
    (now : Nat) :
    (mapGet s.rooms roomId = none →
      submitVote s roomId userId est now = (s, false)) ∧
    (∀ room, mapGet s.rooms roomId = some room →
      (mapGet room.users userId = none →
        submitVote s roomId userId est now = (s, false)) ∧
      (∀ user, mapGet room.users userId = some user →
        (room.votingRevealed = true →
          submitVote s roomId userId est now = (s, false)) ∧
        (room.votingRevealed = false →
          (submitVote s roomId userId est now).2 = true ∧
          (mapGet (submitVote s roomId userId est now).1.rooms roomId).map
              (fun r => mapGet r.users userId) =
            some (some (if est = ""
              then { user with estimate := none, hasVoted := false }
              else { user with estimate := some est, hasVoted := true }))))) := by
  refine ⟨fun h => by rw [submitVote, h], fun room hroom => ⟨?_, ?_⟩⟩
  · intro h
    rw [submitVote, hroom]
    simp only [h]
  · intro user huser
    refine ⟨fun hrev => ?_, fun hrev => ?_⟩
    · rw [submitVote, hroom]
      simp only [huser, hrev, if_true]
    · rw [submitVote, hroom]
      simp only [huser, hrev, if_false, Bool.false_eq_true]
      constructor
      · trivial
      · simp only [mapGet_mapSet_self, Option.map_some]
        split
        · simp
        · simp

/-- Witness for C4: voting after reveal fails and changes nothing; Bob's fresh
vote of `"5"` succeeds and is stored verbatim with `hasVoted = true`. -/
theorem submitVote_spec_witness :
    submitVote sRevealed "R1" "u2" "13" 9 = (sRevealed, false) ∧
    (submitVote sAliceBob "R1" "u2" "5" 2).2 = true ∧
    (mapGet (submitVote sAliceBob "R1" "u2" "5" 2).1.rooms "R1").map
        (fun r => mapGet r.users "u2") =
      some (some { id := "u2", name := "Bob", isAdmin := false
                   estimate := some "5", hasVoted := true, joinedAt := 1
                   connected := true }) := by
  have hfail :=
    (((submitVote_spec sRevealed "R1" "u2" "13" 9).2 _ rfl).2 _ rfl).1 rfl
  have hok :=
    (((submitVote_spec sAliceBob "R1" "u2" "5" 2).2 _ rfl).2 _ rfl).2 rfl
  exact ⟨hfail, hok.1, hok.2.trans (by decide)⟩

/-! ### C7: leaveRoom semantics -/

/-- C7: `LeaveRoom` removes the participant and returns true; a departing
admin is replaced by the first remaining participant in map iteration order
(its admin flag is set and `adminId` is updated to its id); an emptied room is
destroyed, so a subsequent `GetRoomProjection` returns absent; an absent room
or participant yields `false` with the store unchanged. -/
theorem leaveRoom_spec (s : RoomService) (roomId userId : String) (now : Nat) :
    (mapGet s.rooms roomId = none →
      leaveRoom s roomId userId now = (s, false)) ∧
    (∀ room, mapGet s.rooms roomId = some room →
      (mapGet room.users userId = none →
        leaveRoom s roomId userId now = (s, false)) ∧
      (∀ user, mapGet room.users userId = some user →
        (leaveRoom s roomId userId now).2 = true ∧
        (mapDelete room.users userId = [] →
          mapGet (leaveRoom s roomId userId now).1.rooms roomId = none ∧
          (getRoomSummary (leaveRoom s roomId userId now).1 roomId now).2
            = none) ∧
        (∀ k0 u0 rest, mapDelete room.users userId = (k0, u0) :: rest →
          (mapGet (leaveRoom s roomId userId now).1.rooms roomId).map
              (fun r => mapGet r.users userId) = some none ∧
          (user.isAdmin = true →
            (mapGet (leaveRoom s roomId userId now).1.rooms roomId).map
                Room.adminId = some u0.id ∧
            (mapGet (leaveRoom s roomId userId now).1.rooms roomId).map
                (fun r => (mapGet r.users k0).map User.isAdmin)
              = some (some true)) ∧
          (user.isAdmin = false →
            (mapGet (leaveRoom s roomId userId now).1.rooms roomId).map
                Room.adminId = some room.adminId ∧
            (mapGet (leaveRoom s roomId userId now).1.rooms roomId).map
                Room.users = some ((k0, u0) :: rest))))) := by
  refine ⟨fun h => by rw [leaveRoom, h], fun room hroom => ⟨?_, ?_⟩⟩
  · intro h
    rw [leaveRoom, hroom]
    simp only [h]
  · intro user huser
    rw [leaveRoom, hroom]
    simp only [huser]
    cases hrem : mapDelete room.users userId with
    | nil =>
      cases hadm : user.isAdmin <;>
        simp [hrem, getRoomSummary, getRoom, List.isEmpty]
    | cons p rest =>
      obtain ⟨k0, u0⟩ := p
      have hk0 : k0 ≠ userId := by
        have hmem : (k0, u0) ∈ mapDelete room.users userId := by
          rw [hrem]
          exact List.mem_cons_self _ _
        exact (mem_mapDelete hmem).2
      cases hadm : user.isAdmin with
      | false =>
        simp only [Bool.false_eq_true, if_false, List.isEmpty_cons]
        refine ⟨trivial, fun h => by simp at h, ?_⟩
        intro k0' u0' rest' heq
        injection heq with h1 h2
        injection h1 with h3 h4
        subst h3; subst h4; subst h2
        refine ⟨?_, fun h => by simp at h, fun _ => ?_⟩
        · rw [mapGet_mapSet_self]
          simp only [Option.map_some']
          rw [← hrem, mapGet_mapDelete_self]
        · rw [mapGet_mapSet_self]
          exact ⟨rfl, rfl⟩
      | true =>
        have hne : (mapSet ((k0, u0) :: rest) k0
            ({ u0 with isAdmin := true } : User)).isEmpty = false := by
          simp [mapSet, mapHas, mapGet]
        simp only [reduceIte, hne, Bool.false_eq_true, if_false]
        refine ⟨trivial, fun h => by simp at h, ?_⟩
        intro k0' u0' rest' heq
        injection heq with h1 h2
        injection h1 with h3 h4
        subst h3; subst h4; subst h2
        refine ⟨?_, fun _ => ?_, fun h => by simp at h⟩
        · rw [mapGet_mapSet_self]
          simp only [Option.map_some']
          rw [mapGet_mapSet_ne _ _ (Ne.symm hk0), ← hrem, mapGet_mapDelete_self]
        · rw [mapGet_mapSet_self]
          refine ⟨rfl, ?_⟩
          simp only [Option.map_some']
          rw [mapGet_mapSet_self]
          rfl

/-- Witness for C7: Alice leaving her one-person room destroys it; Alice (the
admin) leaving the revealed two-person room promotes Bob, the first remaining
participant. -/
theorem leaveRoom_spec_witness :
    (leaveRoom sAlice "R1" "u1" 5).2 = true ∧
    mapGet (leaveRoom sAlice "R1" "u1" 5).1.rooms "R1" = none ∧
    (getRoomSummary (leaveRoom sAlice "R1" "u1" 5).1 "R1" 5).2 = none ∧
    (mapGet (leaveRoom sRevealed "R1" "u1" 6).1.rooms "R1").map Room.adminId
      = some "u2" ∧
    (mapGet (leaveRoom sRevealed "R1" "u1" 6).1.rooms "R1").map
        (fun r => (mapGet r.users "u2").map User.isAdmin)
      = some (some true) := by
  have h1 := ((leaveRoom_spec sAlice "R1" "u1" 5).2 _ rfl).2 _ rfl
  have h2 := ((leaveRoom_spec sRevealed "R1" "u1" 6).2 _ rfl).2 _ rfl
  have hdel := h1.2.1 rfl
  have hadm := (h2.2.2 "u2" _ [] rfl).2.1 rfl
  exact ⟨h1.1, hdel.1, hdel.2, hadm.1.trans (by decide),
    hadm.2.trans (by decide)⟩

/-! ### C9: which operations refresh lastActivity (amended) -/

/-- C9 (amended): every mutator (`createRoom`, `joinRoom`, `leaveRoom`,
`updateStory`, `submitVote`, `revealVotes`, `resetVoting`, the
`start-estimation` handler) and the room fetches `getRoom`/`getRoomSummary`
set the touched room's `lastActivity` to the time of the call (a room deleted
by `leaveRoom` excepted), while the read-only projections
`GetParticipantsProjection` (`getUsersInRoom`) and `GetVotingResults` leave
the store — in particular `lastActivity` — unchanged. -/
theorem lastActivity_spec (s : RoomService)
    (roomId userId userName name adminName est : String) (isAdmin : Bool)
    (story : Story) (now : Nat) :
    ((mapGet (createRoom s roomId userId name adminName now).rooms roomId).map
        Room.lastActivity = some now) ∧
    ((joinRoom s roomId userName isAdmin userId now).2.success = true →
      (mapGet (joinRoom s roomId userName isAdmin userId now).1.rooms
          roomId).map Room.lastActivity = some now) ∧
    ((leaveRoom s roomId userId now).2 = true →
      mapGet (leaveRoom s roomId userId now).1.rooms roomId = none ∨
      (mapGet (leaveRoom s roomId userId now).1.rooms roomId).map
          Room.lastActivity = some now) ∧
    ((updateStory s roomId userId story now).2 = true →
      (mapGet (updateStory s roomId userId story now).1.rooms roomId).map
          Room.lastActivity = some now) ∧
    ((submitVote s roomId userId est now).2 = true →
      (mapGet (submitVote s roomId userId est now).1.rooms roomId).map
          Room.lastActivity = some now) ∧
    ((revealVotes s roomId userId now).2 = true →
      (mapGet (revealVotes s roomId userId now).1.rooms roomId).map
          Room.lastActivity = some now) ∧
    ((resetVoting s roomId userId now).2 = true →
      (mapGet (resetVoting s roomId userId now).1.rooms roomId).map
          Room.lastActivity = some now) ∧
    ((startEstimation s roomId userId now).2 = true →
      (mapGet (startEstimation s roomId userId now).1.rooms roomId).map
          Room.lastActivity = some now) ∧
    ((getRoom s roomId now).2.isSome = true →
      (mapGet (getRoom s roomId now).1.rooms roomId).map
          Room.lastActivity = some now) ∧
    ((getRoomSummary s roomId now).2.isSome = true →
      (mapGet (getRoomSummary s roomId now).1.rooms roomId).map
          Room.lastActivity = some now) ∧
    (getUsersInRoom s roomId now).1 = s ∧
    (getVotingResults s roomId now).1 = s := by
  refine ⟨?_, ?_, ?_, ?_, ?_, ?_, ?_, ?_, ?_, ?_, ?_, ?_⟩
  · rw [createRoom]
    simp [mapGet_mapSet_self]
  · intro h
    cases hroom : mapGet s.rooms roomId with
    | none => rw [joinRoom, hroom] at h; simp at h
    | some room =>
      rw [joinRoom, hroom] at h ⊢
      simp only at h ⊢
      split at h
      · simp at h
      · next hcond =>
        rw [if_neg hcond]
        simp [mapGet_mapSet_self]
  · intro h
    cases hroom : mapGet s.rooms roomId with
    | none => rw [leaveRoom, hroom] at h; simp at h
    | some room =>
      cases huser : mapGet room.users userId with
      | none => rw [leaveRoom, hroom] at h; simp [huser] at h
      | some user =>
        rw [leaveRoom, hroom]
        simp only [huser]
        cases hrem : mapDelete room.users userId with
        | nil =>
          cases hadm : user.isAdmin <;>
            exact Or.inl (by simp [mapGet_mapDelete_self])
        | cons p rest =>
          obtain ⟨k0, u0⟩ := p
          cases hadm : user.isAdmin with
          | false =>
            refine Or.inr ?_
            simp only [Bool.false_eq_true, if_false, List.isEmpty_cons]
            rw [mapGet_mapSet_self]
            rfl
          | true =>
            refine Or.inr ?_
            have hne : (mapSet ((k0, u0) :: rest) k0
                ({ u0 with isAdmin := true } : User)).isEmpty = false := by
              simp [mapSet, mapHas, mapGet]
            simp only [reduceIte, hne, Bool.false_eq_true, if_false]
            rw [mapGet_mapSet_self]
            rfl
  · intro h
    cases hroom : mapGet s.rooms roomId with
    | none => rw [updateStory, hroom] at h; simp at h
    | some room =>
      cases huser : mapGet room.users userId with
      | none => rw [updateStory, hroom] at h; simp [huser] at h
      | some user =>
        rw [updateStory, hroom] at h ⊢
        simp only [huser] at h ⊢
        cases hadm : user.isAdmin with
        | false => rw [hadm] at h; simp at h
        | true => simp [mapGet_mapSet_self]
  · intro h
    cases hroom : mapGet s.rooms roomId with
    | none => rw [submitVote, hroom] at h; simp at h
    | some room =>
      cases huser : mapGet room.users userId with
      | none => rw [submitVote, hroom] at h; simp [huser] at h
      | some user =>
        rw [submitVote, hroom] at h ⊢
        simp only [huser] at h ⊢
        cases hrev : room.votingRevealed with
        | true => rw [hrev] at h; simp at h
        | false =>
          simp only [Bool.false_eq_true, if_false]
          rw [mapGet_mapSet_self]
          rfl
  · intro h
    cases hroom : mapGet s.rooms roomId with
    | none => rw [revealVotes, hroom] at h; simp at h
    | some room =>
      cases huser : mapGet room.users userId with
      | none => rw [revealVotes, hroom] at h; simp [huser] at h
      | some user =>
        rw [revealVotes, hroom] at h ⊢
        simp only [huser] at h ⊢
        cases hadm : user.isAdmin with
        | false => rw [hadm] at h; simp at h
        | true => simp [mapGet_mapSet_self]
  · intro h
    cases hroom : mapGet s.rooms roomId with
    | none => rw [resetVoting, hroom] at h; simp at h
    | some room =>
      cases huser : mapGet room.users userId with
      | none => rw [resetVoting, hroom] at h; simp [huser] at h
      | some user =>
        rw [resetVoting, hroom] at h ⊢
        simp only [huser] at h ⊢
        cases hadm : user.isAdmin with
        | false => rw [hadm] at h; simp at h
        | true => simp [mapGet_mapSet_self]
  · intro h
    cases hroom : mapGet s.rooms roomId with
    | none => rw [startEstimation, getRoom, hroom] at h; simp at h
    | some room =>
      rw [startEstimation, getRoom, hroom] at h ⊢
      simp only at h ⊢
      cases huser : mapGet ({ room with lastActivity := now } : Room).users
          userId with
      | none => simp [huser] at h
      | some user =>
        simp only [huser] at h ⊢
        cases hadm : user.isAdmin with
        | false => rw [hadm] at h; simp at h
        | true => simp [mapGet_mapSet_self]
  · intro h
    cases hroom : mapGet s.rooms roomId with
    | none => rw [getRoom, hroom] at h; simp at h
    | some room =>
      rw [getRoom, hroom]
      simp [mapGet_mapSet_self]
  · intro h
    cases hroom : mapGet s.rooms roomId with
    | none => rw [getRoomSummary, getRoom, hroom] at h; simp at h
    | some room =>
      rw [getRoomSummary, getRoom, hroom]
      simp [mapGet_mapSet_self]
  · rw [getUsersInRoom]
    cases mapGet s.rooms roomId <;> rfl
  · rw [getVotingResults]
    cases mapGet s.rooms roomId <;> rfl

/-- Witness for C9: Bob's vote stamps `lastActivity = 2`; `getRoom` at time 7
stamps 7; the participants projection leaves the store untouched. -/
theorem lastActivity_spec_witness :
    (mapGet (submitVote sAliceBob "R1" "u2" "5" 2).1.rooms "R1").map
        Room.lastActivity = some 2 ∧
    (mapGet (getRoom sVotes "R1" 7).1.rooms "R1").map Room.lastActivity
      = some 7 ∧
    (getUsersInRoom sVotes "R1" 7).1 = sVotes :=
  ⟨(lastActivity_spec sAliceBob "R1" "u2" "x" "x" "x" "5" false
      ⟨"", ""⟩ 2).2.2.2.2.1 rfl,
   (lastActivity_spec sVotes "R1" "u" "x" "x" "x" "e" false
      ⟨"", ""⟩ 7).2.2.2.2.2.2.2.2.1 rfl,
   (lastActivity_spec sVotes "R1" "u" "x" "x" "x" "e" false
      ⟨"", ""⟩ 7).2.2.2.2.2.2.2.2.2.2.1⟩

/-- Counterexample to C9 as stated: calling `getUsersInRoom` and
`getVotingResults` at time 5 on a room whose `lastActivity` is 1 leaves the
store unchanged, so neither projection updates `lastActivity` to the time of
the call. -/
theorem lastActivity_claim_counterexample :
    (getUsersInRoom sAliceBob "R1" 5).1 = sAliceBob ∧
    (mapGet sAliceBob.rooms "R1").map Room.lastActivity = some 1 ∧
    ¬ (mapGet (getUsersInRoom sAliceBob "R1" 5).1.rooms "R1").map
        Room.lastActivity = some 5 ∧
    (getVotingResults sAliceBob "R1" 5).1 = sAliceBob ∧
    ¬ (mapGet (getVotingResults sAliceBob "R1" 5).1.rooms "R1").map
        Room.lastActivity = some 5 := by
  refine ⟨rfl, rfl, by decide, rfl, by decide⟩

/-! ### C8: atomicity on failure (amended) -/

/-- C8 (amended): `joinRoom`, `leaveRoom`, `updateStory`, `submitVote`,
`revealVotes` and `resetVoting` leave the store unchanged whenever they
fail; the `start-estimation` handler is the exception: on failure with the
room present it has already refreshed that room's `lastActivity` (via its
initial `getRoom`), all else unchanged. -/
theorem failure_atomicity (s : RoomService)
    (roomId userId userName est : String) (isAdmin : Bool) (story : Story)
    (now : Nat) :
    ((joinRoom s roomId userName isAdmin userId now).2.success = false →
      (joinRoom s roomId userName isAdmin userId now).1 = s) ∧
    ((leaveRoom s roomId userId now).2 = false →
      (leaveRoom s roomId userId now).1 = s) ∧
    ((updateStory s roomId userId story now).2 = false →
      (updateStory s roomId userId story now).1 = s) ∧
    ((submitVote s roomId userId est now).2 = false →
      (submitVote s roomId userId est now).1 = s) ∧
    ((revealVotes s roomId userId now).2 = false →
      (revealVotes s roomId userId now).1 = s) ∧
    ((resetVoting s roomId userId now).2 = false →
      (resetVoting s roomId userId now).1 = s) ∧
    ((startEstimation s roomId userId now).2 = false →
      (mapGet s.rooms roomId = none →
        (startEstimation s roomId userId now).1 = s) ∧
      (∀ room, mapGet s.rooms roomId = some room →
        (startEstimation s roomId userId now).1 =
          { s with rooms :=
              mapSet s.rooms roomId { room with lastActivity := now } })) := by
  refine ⟨?_, ?_, ?_, ?_, ?_, ?_, ?_⟩
  · intro h
    cases hroom : mapGet s.rooms roomId with
    | none => rw [joinRoom, hroom]
    | some room =>
      rw [joinRoom, hroom] at h ⊢
      simp only at h ⊢
      split at h
      · next hcond => rw [if_pos hcond]
      · simp at h
  · intro h
    cases hroom : mapGet s.rooms roomId with
    | none => rw [leaveRoom, hroom]
    | some room =>
      cases huser : mapGet room.users userId with
      | none => rw [leaveRoom, hroom]; simp only [huser]
      | some user =>
        rw [leaveRoom, hroom] at h
        simp only [huser] at h
        simp only [apply_ite Prod.snd, ite_self] at h
        exact absurd h (by simp)
  · intro h
    cases hroom : mapGet s.rooms roomId with
    | none => rw [updateStory, hroom]
    | some room =>
      cases huser : mapGet room.users userId with
      | none => rw [updateStory, hroom]; simp only [huser]
      | some user =>
        cases hadm : user.isAdmin with
        | false => rw [updateStory, hroom]; simp only [huser, hadm]; simp
        | true =>
          rw [updateStory, hroom] at h
          simp only [huser, hadm] at h
          simp at h
  · intro h
    cases hroom : mapGet s.rooms roomId with
    | none => rw [submitVote, hroom]
    | some room =>
      cases huser : mapGet room.users userId with
      | none => rw [submitVote, hroom]; simp only [huser]
      | some user =>
        cases hrev : room.votingRevealed with
        | true => rw [submitVote, hroom]; simp only [huser, hrev]; simp
        | false =>
          rw [submitVote, hroom] at h
          simp only [huser, hrev] at h
          simp at h
  · intro h
    cases hroom : mapGet s.rooms roomId with
    | none => rw [revealVotes, hroom]
    | some room =>
      cases huser : mapGet room.users userId with
      | none => rw [revealVotes, hroom]; simp only [huser]
      | some user =>
        cases hadm : user.isAdmin with
        | false => rw [revealVotes, hroom]; simp only [huser, hadm]; simp
        | true =>
          rw [revealVotes, hroom] at h
          simp only [huser, hadm] at h
          simp at h
  · intro h
    cases hroom : mapGet s.rooms roomId with
    | none => rw [resetVoting, hroom]
    | some room =>
      cases huser : mapGet room.users userId with
      | none => rw [resetVoting, hroom]; simp only [huser]
      | some user =>
        cases hadm : user.isAdmin with
        | false => rw [resetVoting, hroom]; simp only [huser, hadm]; simp
        | true =>
          rw [resetVoting, hroom] at h
          simp only [huser, hadm] at h
          simp at h
  · intro h
    constructor
    · intro hroom
      rw [startEstimation, getRoom, hroom]
    · intro room hroom
      rw [startEstimation, getRoom, hroom] at h ⊢
      simp only at h ⊢
      cases huser : mapGet ({ room with lastActivity := now } : Room).users
          userId with
      | none => simp only [huser]
      | some user =>
        cases hadm : user.isAdmin with
        | false => simp only [huser, hadm]; simp
        | true =>
          simp only [huser, hadm] at h
          simp at h

/-- Witness for C8: each operation, at an input where it fails, leaves the
store exactly as it was (for `start-estimation`, with the room absent). -/
theorem failure_atomicity_witness :
    (joinRoom emptyStore "R1" "Eve" false "u9" 3).1 = emptyStore ∧
    (leaveRoom emptyStore "R1" "u9" 3).1 = emptyStore ∧
    (updateStory sAliceBob "R1" "u2" ⟨"t", "d"⟩ 9).1 = sAliceBob ∧
    (submitVote sRevealed "R1" "u2" "13" 9).1 = sRevealed ∧
    (revealVotes sAliceBob "R1" "u2" 9).1 = sAliceBob ∧
    (resetVoting sAliceBob "R1" "u2" 9).1 = sAliceBob ∧
    (startEstimation emptyStore "R1" "u9" 3).1 = emptyStore :=
  ⟨(failure_atomicity emptyStore "R1" "u9" "Eve" "e" false ⟨"", ""⟩ 3).1 rfl,
   (failure_atomicity emptyStore "R1" "u9" "Eve" "e" false ⟨"", ""⟩ 3).2.1 rfl,
   (failure_atomicity sAliceBob "R1" "u2" "x" "e" false ⟨"t", "d"⟩ 9).2.2.1 rfl,
   (failure_atomicity sRevealed "R1" "u2" "x" "13" false
     ⟨"", ""⟩ 9).2.2.2.1 rfl,
   (failure_atomicity sAliceBob "R1" "u2" "x" "e" false ⟨"", ""⟩ 9).2.2.2.2.1
     rfl,
   (failure_atomicity sAliceBob "R1" "u2" "x" "e" false
     ⟨"", ""⟩ 9).2.2.2.2.2.1 rfl,
   ((failure_atomicity emptyStore "R1" "u9" "x" "e" false
     ⟨"", ""⟩ 3).2.2.2.2.2.2 rfl).1 rfl⟩

/-- Counterexample to C8 as stated: `start-estimation` invoked by an unknown
user returns failure yet has mutated the store (the room's `lastActivity`). -/
theorem failure_atomicity_claim_counterexample :
    (startEstimation sAliceBob "R1" "ghost" 9).2 = false ∧
    (startEstimation sAliceBob "R1" "ghost" 9).1 ≠ sAliceBob := by
  refine ⟨rfl, by decide⟩

/-! ### C2: hidden-state noninterference of the projections (amended) -/

/-- A pointwise relation on two maps transfers through `mapGet`. -/
theorem mapGet_forall2 {α : Type} {R : α → α → Prop}
    {m1 m2 : List (String × α)}
    (h : List.Forall₂ (fun p q => p.1 = q.1 ∧ R p.2 q.2) m1 m2) (k : String) :
    (mapGet m1 k = none ∧ mapGet m2 k = none) ∨
    (∃ a b, mapGet m1 k = some a ∧ mapGet m2 k = some b ∧ R a b) := by
  induction h with
  | nil => exact Or.inl ⟨rfl, rfl⟩
  | cons hpq htail ih =>
    next p q ps qs =>
    obtain ⟨hk, hR⟩ := hpq
    by_cases hke : p.1 = k
    · refine Or.inr ⟨p.2, q.2, ?_, ?_, hR⟩
      · rw [mapGet, if_pos hke]
      · rw [mapGet, if_pos (hk ▸ hke)]
    · have hke' : q.1 ≠ k := hk ▸ hke
      rcases ih with ⟨h1, h2⟩ | ⟨a, b, h1, h2, hab⟩
      · exact Or.inl ⟨by rw [mapGet, if_neg hke]; exact h1,
          by rw [mapGet, if_neg hke']; exact h2⟩
      · exact Or.inr ⟨a, b, by rw [mapGet, if_neg hke]; exact h1,
          by rw [mapGet, if_neg hke']; exact h2, hab⟩

theorem userSummaryOf_hidden_eq {u v : User} (h : UserSameButVote u v) :
    userSummaryOf false u = userSummaryOf false v := by
  obtain ⟨h1, h2, h3, h4, h5, h6⟩ := h
  rw [userSummaryOf, userSummaryOf]
  simp [h1, h2, h3, h4, h6]

theorem hidden_summaries_eq {l1 l2 : List (String × User)}
    (h : List.Forall₂ (fun p q => p.1 = q.1 ∧ UserSameButVote p.2 q.2) l1 l2) :
    (mapValues l1).map (userSummaryOf false)
      = (mapValues l2).map (userSummaryOf false) := by
  induction h with
  | nil => rfl
  | cons hpq htail ih =>
    simp only [mapValues, List.map_cons] at ih ⊢
    rw [userSummaryOf_hidden_eq hpq.2, ih]

theorem votedUsers_length_eq {l1 l2 : List (String × User)}
    (h : List.Forall₂ (fun p q => p.1 = q.1 ∧ UserSameButVote p.2 q.2) l1 l2) :
    ((mapValues l1).filter (fun u => u.hasVoted)).length
      = ((mapValues l2).filter (fun u => u.hasVoted)).length := by
  induction h with
  | nil => rfl
  | cons hpq htail ih =>
    next p q ps qs =>
    simp only [mapValues, List.map_cons, List.filter_cons]
    rw [hpq.2.2.2.2.1]
    split
    · simp only [List.length_cons]
      simp only [mapValues] at ih
      rw [ih]
    · simpa [mapValues] using ih

/-- C2 (amended): for two stores that differ only in stored vote values, on a
room with `revealed = false` the participants projection is identical, and of
`GetVotingResults` the `revealed` flag, `votes` list and `totalVotes` count
are identical — but not the summary's `uniqueEstimates`/`mostCommon`, which
are computed from the hidden stored votes (see the counterexample). -/
theorem hidden_votes_noninterference (s t : RoomService)
    (h : StoreSameButVotes s t) (roomId : String) (now : Nat)
    (hrev : roomHidden (mapGet s.rooms roomId) = true) :
    (getUsersInRoom s roomId now).2 = (getUsersInRoom t roomId now).2 ∧
    ((getVotingResults s roomId now).2).map VotingResults.revealed =
      ((getVotingResults t roomId now).2).map VotingResults.revealed ∧
    ((getVotingResults s roomId now).2).map VotingResults.votes =
      ((getVotingResults t roomId now).2).map VotingResults.votes ∧
    ((getVotingResults s roomId now).2).map
        (fun r => r.summary.totalVotes) =
      ((getVotingResults t roomId now).2).map
        (fun r => r.summary.totalVotes) := by
  rcases mapGet_forall2 h.1 roomId with ⟨h1, h2⟩ | ⟨a, b, h1, h2, hab⟩
  · rw [getUsersInRoom, getUsersInRoom, getVotingResults, getVotingResults,
      h1, h2]
    exact ⟨rfl, rfl, rfl, rfl⟩
  · obtain ⟨e1, e2, e3, husers, e5, e6, e7, e8, e9⟩ := hab
    have hahid : a.votingRevealed = false := by
      rw [h1] at hrev
      simpa [roomHidden] using hrev
    have hbhid : b.votingRevealed = false := by rw [← e6]; exact hahid
    rw [getUsersInRoom, getUsersInRoom, getVotingResults, getVotingResults,
      h1, h2]
    simp only [Option.map_some']
    refine ⟨?_, ?_, ?_, ?_⟩
    · rw [hahid, hbhid]
      exact hidden_summaries_eq husers
    · exact congrArg some e6
    · rw [hahid, hbhid]
      exact congrArg some (hidden_summaries_eq husers)
    · exact congrArg some (votedUsers_length_eq husers)

/-- The two sample stores differ only in Bob's stored vote. -/
theorem sHid_rel : StoreSameButVotes sHid5 sHid8 := by
  refine ⟨?_, rfl, rfl⟩
  refine List.Forall₂.cons ⟨rfl, ?_⟩ List.Forall₂.nil
  refine ⟨rfl, rfl, rfl, ?_, rfl, rfl, rfl, rfl, rfl⟩
  refine List.Forall₂.cons ⟨rfl, ?_⟩
    (List.Forall₂.cons ⟨rfl, ?_⟩ List.Forall₂.nil)
  · exact ⟨rfl, rfl, rfl, rfl, rfl, rfl⟩
  · exact ⟨rfl, rfl, rfl, rfl, rfl, rfl⟩

/-- Counterexample to C2 as stated: the stores [sHid5] and [sHid8] differ
only in Bob's stored vote and the room is unrevealed, yet `GetVotingResults`
returns different results (the summary's distinct-value set leaks the hidden
vote). -/
theorem hidden_votes_claim_counterexample :
    StoreSameButVotes sHid5 sHid8 ∧
    roomHidden (mapGet sHid5.rooms "R1") = true ∧
    roomHidden (mapGet sHid8.rooms "R1") = true ∧
    (getVotingResults sHid5 "R1" 3).2 ≠ (getVotingResults sHid8 "R1" 3).2 :=
  ⟨sHid_rel, rfl, rfl, by decide⟩

/-- Witness for C2 (amended): on the two concrete stores the participants
projection and the results' votes lists agree. -/
theorem hidden_votes_noninterference_witness :
    (getUsersInRoom sHid5 "R1" 3).2 = (getUsersInRoom sHid8 "R1" 3).2 ∧
    ((getVotingResults sHid5 "R1" 3).2).map VotingResults.votes =
      ((getVotingResults sHid8 "R1" 3).2).map VotingResults.votes :=
  ⟨(hidden_votes_noninterference sHid5 sHid8 sHid_rel "R1" 3 rfl).1,
   (hidden_votes_noninterference sHid5 sHid8 sHid_rel "R1" 3 rfl).2.2.1⟩

/-! ### C6: the most-common-vote summary (amended) -/

/-- The `reduce` in roomService.ts:247-249 selects an element attaining the
maximal count, and among equally counted elements the last one in the
enumeration order (a tie `counts[a] > counts[b]` keeps `b`). -/
theorem foldl_pick_last_max (c : String → Nat) (k : String) (ks : List String) :
    ∃ l1 l2,
      k :: ks =
        l1 ++ (ks.foldl (fun a b => if c a > c b then a else b) k) :: l2 ∧
      (∀ x ∈ l1, c x ≤ c (ks.foldl (fun a b => if c a > c b then a else b) k)) ∧
      (∀ x ∈ l2, c x < c (ks.foldl (fun a b => if c a > c b then a else b) k)) := by
  induction ks generalizing k with
  | nil => exact ⟨[], [], rfl, by simp, by simp⟩
  | cons b bs ih =>
    rw [List.foldl_cons]
    by_cases hkb : c k > c b
    · rw [if_pos hkb]
      rcases ih k with ⟨l1, l2, heq, h1, h2⟩
      cases l1 with
      | nil =>
        simp only [List.nil_append] at heq
        have hr : bs.foldl (fun a b => if c a > c b then a else b) k = k :=
          (List.cons.inj heq).1.symm
        have hbs : bs = l2 := (List.cons.inj heq).2
        refine ⟨[], b :: bs, by simp [hr], by simp, ?_⟩
        intro x hx
        rcases List.mem_cons.mp hx with rfl | hx'
        · rw [hr]; exact hkb
        · rw [hbs] at hx'
          exact h2 x hx'
      | cons a l1' =>
        have ha : a = k := ((List.cons.inj heq).1).symm
        have hbs : bs = l1' ++
            (bs.foldl (fun a b => if c a > c b then a else b) k) :: l2 :=
          (List.cons.inj heq).2
        have hkle : c k ≤ c (bs.foldl (fun a b => if c a > c b then a else b) k) := by
          apply h1
          rw [ha]
          exact List.mem_cons_self _ _
        refine ⟨k :: b :: l1', l2, ?_, ?_, h2⟩
        · rw [List.cons_append, List.cons_append, ← hbs]
        · intro x hx
          rcases List.mem_cons.mp hx with rfl | hx'
          · exact hkle
          · rcases List.mem_cons.mp hx' with rfl | hx''
            · exact le_trans (le_of_lt hkb) hkle
            · exact h1 x (List.mem_cons_of_mem _ hx'')
    · rw [if_neg hkb]
      have hkb' : c k ≤ c b := Nat.le_of_not_lt hkb
      rcases ih b with ⟨l1, l2, heq, h1, h2⟩
      cases l1 with
      | nil =>
        simp only [List.nil_append] at heq
        have hr : bs.foldl (fun a b => if c a > c b then a else b) b = b :=
          (List.cons.inj heq).1.symm
        have hbs : bs = l2 := (List.cons.inj heq).2
        refine ⟨[k], bs, by rw [hr]; rfl, ?_, ?_⟩
        · intro x hx
          rcases List.mem_singleton.mp hx with rfl
          rw [hr]
          exact hkb'
        · intro x hx
          rw [hbs] at hx
          exact h2 x hx
      | cons a l1' =>
        have ha : a = b := ((List.cons.inj heq).1).symm
        have hbs : bs = l1' ++
            (bs.foldl (fun a b => if c a > c b then a else b) b) :: l2 :=
          (List.cons.inj heq).2
        have hble : c b ≤ c (bs.foldl (fun a b => if c a > c b then a else b) b) := by
          apply h1
          rw [ha]
          exact List.mem_cons_self _ _
        refine ⟨k :: b :: l1', l2, ?_, ?_, h2⟩
        · rw [List.cons_append, List.cons_append, ← hbs]
        · intro x hx
          rcases List.mem_cons.mp hx with rfl | hx'
          · exact le_trans hkb' hble
          · rcases List.mem_cons.mp hx' with rfl | hx''
            · exact hble
            · exact h1 x (List.mem_cons_of_mem _ hx'')

theorem insertAsc_ne_nil (x : String) (l : List String) : insertAsc x l ≠ [] := by
  cases l with
  | nil => simp [insertAsc]
  | cons y ys =>
    rw [insertAsc]
    split <;> simp

theorem sortAsc_eq_nil {l : List String} : sortAsc l = [] ↔ l = [] := by
  cases l with
  | nil => simp [sortAsc]
  | cons y ys =>
    constructor
    · intro h
      exact absurd h (insertAsc_ne_nil y (sortAsc ys))
    · intro h
      exact absurd h (by simp)

theorem insertCount_ne_nil (acc : List (String × Nat)) (e : String) :
    insertCount acc e ≠ [] := by
  rw [insertCount]
  cases h : mapGet acc e with
  | none => simp
  | some n =>
    have hacc : acc ≠ [] := by
      intro hc
      rw [hc] at h
      simp [mapGet] at h
    simp [mapSet, mapHas, h, hacc]

theorem foldl_insertCount_ne_nil (l : List String) (acc : List (String × Nat))
    (h : acc ≠ []) : l.foldl insertCount acc ≠ [] := by
  induction l generalizing acc with
  | nil => exact h
  | cons e rest ih =>
    rw [List.foldl_cons]
    exact ih _ (insertCount_ne_nil acc e)

theorem estimateCounts_ne_nil {room : Room} (h : estimatesOf room ≠ []) :
    estimateCountsOf room ≠ [] := by
  rw [estimateCountsOf]
  cases hl : estimatesOf room with
  | nil => exact absurd hl h
  | cons e rest =>
    rw [List.foldl_cons]
    exact foldl_insertCount_ne_nil rest _ (insertCount_ne_nil [] e)

theorem objectKeys_eq_nil {m : List (String × Nat)} :
    objectKeys m = [] ↔ m = [] := by
  rw [objectKeys]
  simp only [List.append_eq_nil]
  constructor
  · rintro ⟨h1, h2⟩
    rw [sortAsc_eq_nil] at h1
    cases m with
    | nil => rfl
    | cons p ps =>
      exfalso
      by_cases hp : isArrayIndexStr p.1
      · rw [List.map_cons, List.filter_cons_of_pos hp] at h1
        exact absurd h1 (by simp)
      · rw [List.map_cons, List.filter_cons_of_pos (by simp [hp])] at h2
        exact absurd h2 (by simp)
  · intro h
    rw [h]
    exact ⟨rfl, rfl⟩

theorem mem_insertAsc {x y : String} {l : List String}
    (h : x ∈ insertAsc y l) : x = y ∨ x ∈ l := by
  induction l with
  | nil => simpa [insertAsc] using h
  | cons z zs ih =>
    rw [insertAsc] at h
    split at h
    · exact (List.mem_cons.mp h).imp id id
    · rcases List.mem_cons.mp h with rfl | h'
      · exact Or.inr (List.mem_cons_self _ _)
      · rcases ih h' with h'' | h''
        · exact Or.inl h''
        · exact Or.inr (List.mem_cons_of_mem _ h'')

theorem mem_sortAsc {x : String} {l : List String} (h : x ∈ sortAsc l) :
    x ∈ l := by
  induction l with
  | nil => simpa [sortAsc] using h
  | cons y ys ih =>
    rcases mem_insertAsc (h : x ∈ insertAsc y (sortAsc ys)) with rfl | h'
    · exact List.mem_cons_self _ _
    · exact List.mem_cons_of_mem _ (ih h')

theorem mem_objectKeys {x : String} {m : List (String × Nat)}
    (h : x ∈ objectKeys m) : x ∈ m.map Prod.fst := by
  rw [objectKeys] at h
  rcases List.mem_append.mp h with h' | h'
  · exact (List.mem_filter.mp (mem_sortAsc h')).1
  · exact (List.mem_filter.mp h').1

theorem keys_insertCount {x : String} {acc : List (String × Nat)} {e : String}
    (h : x ∈ (insertCount acc e).map Prod.fst) :
    x ∈ acc.map Prod.fst ∨ x = e := by
  rw [insertCount] at h
  cases hg : mapGet acc e with
  | none =>
    rw [hg] at h
    rw [List.map_append] at h
    rcases List.mem_append.mp h with h' | h'
    · exact Or.inl h'
    · simp at h'
      exact Or.inr h'
  | some n =>
    rw [hg, keys_mapSet_of_has _ (by rw [mapHas, hg]; rfl)] at h
    exact Or.inl h

theorem keys_foldl_insertCount {x : String} {l : List String} :
    ∀ {acc : List (String × Nat)},
      x ∈ (l.foldl insertCount acc).map Prod.fst →
      x ∈ acc.map Prod.fst ∨ x ∈ l := by
  induction l with
  | nil => exact fun h => Or.inl h
  | cons e rest ih =>
    intro acc h
    rw [List.foldl_cons] at h
    rcases ih h with h' | h'
    · rcases keys_insertCount h' with h'' | rfl
      · exact Or.inl h''
      · exact Or.inr (List.mem_cons_self _ _)
    · exact Or.inr (List.mem_cons_of_mem _ h')

theorem mem_dedupFirstAux {x : String} {l : List String} :
    ∀ {seen : List String}, x ∈ dedupFirstAux seen l → x ∈ l := by
  induction l with
  | nil => intro seen h; simpa [dedupFirstAux] using h
  | cons y ys ih =>
    intro seen h
    rw [dedupFirstAux] at h
    split at h
    · exact List.mem_cons_of_mem _ (ih h)
    · rcases List.mem_cons.mp h with rfl | h'
      · exact List.mem_cons_self _ _
      · exact List.mem_cons_of_mem _ (ih h')

theorem mem_estimatesOf {e : String} {room : Room}
    (h : e ∈ estimatesOf room) :
    ∃ p ∈ room.users, p.2.hasVoted = true ∧ p.2.estimate = some e ∧ e ≠ "" := by
  rw [estimatesOf] at h
  rcases List.mem_filter.mp h with ⟨h1, h2⟩
  rcases List.mem_filterMap.mp h1 with ⟨o, ho, hoe⟩
  rcases List.mem_map.mp ho with ⟨u, hu, hue⟩
  rw [votedUsersOf] at hu
  rcases List.mem_filter.mp hu with ⟨hu1, hu2⟩
  rw [mapValues] at hu1
  rcases List.mem_map.mp hu1 with ⟨p, hp, hpu⟩
  refine ⟨p, hp, ?_, ?_, of_decide_eq_true h2⟩
  · rw [hpu]; exact hu2
  · rw [hpu, hue]; exact hoe

/-- C6 (amended): `GetVotingResults` reports as `mostCommon` exactly
`mostCommonOf room`, which attains the maximal frequency among the non-empty
vote values of participants whose voted flag is true (never-voted
participants are excluded from the distinct-value set and the counts), and
ties among equally frequent values are broken in favour of the LAST value in
the enumeration order — JS object-key order: integer-like vote tokens in
ascending numeric order first, then the remaining tokens in first-occurrence
order. -/
theorem mostCommon_spec (s : RoomService) (roomId : String) (now : Nat)
    (room : Room) (hroom : mapGet s.rooms roomId = some room) :
    ((getVotingResults s roomId now).2).map (fun r => r.summary.mostCommon)
      = some (mostCommonOf room) ∧
    ((getVotingResults s roomId now).2).map
        (fun r => r.summary.uniqueEstimates)
      = some (dedupFirst (estimatesOf room)) ∧
    (objectKeys (estimateCountsOf room) = [] ↔ estimatesOf room = []) ∧
    IsLastMax (countOf (estimateCountsOf room))
      (objectKeys (estimateCountsOf room)) (mostCommonOf room) ∧
    (∀ e ∈ dedupFirst (estimatesOf room),
      ∃ p ∈ room.users, p.2.hasVoted = true ∧ p.2.estimate = some e ∧
        e ≠ "") ∧
    (∀ e ∈ objectKeys (estimateCountsOf room),
      ∃ p ∈ room.users, p.2.hasVoted = true ∧ p.2.estimate = some e ∧
        e ≠ "") := by
  have hkeysnil : objectKeys (estimateCountsOf room) = [] ↔
      estimatesOf room = [] := by
    constructor
    · intro h
      by_contra hne
      exact estimateCounts_ne_nil hne (objectKeys_eq_nil.mp h)
    · intro h
      rw [estimateCountsOf, h]
      rfl
  refine ⟨?_, ?_, hkeysnil, ?_, ?_, ?_⟩
  · rw [getVotingResults, hroom]
    rfl
  · rw [getVotingResults, hroom]
    rfl
  · rw [mostCommonOf]
    by_cases hlen : (estimatesOf room).length > 0
    · rw [if_pos hlen]
      cases hkeys : objectKeys (estimateCountsOf room) with
      | nil =>
        exfalso
        have := hkeysnil.mp hkeys
        rw [this] at hlen
        simp at hlen
      | cons k ks =>
        rw [IsLastMax, pickMost]
        rcases foldl_pick_last_max (countOf (estimateCountsOf room)) k ks
          with ⟨l1, l2, heq, h1, h2⟩
        exact ⟨l1, l2, heq, h1, h2⟩
    · rw [if_neg hlen]
      rw [IsLastMax, hkeysnil]
      have : estimatesOf room = [] := by
        cases h : estimatesOf room with
        | nil => rfl
        | cons a l => rw [h] at hlen; simp at hlen
      exact this
  · intro e he
    exact mem_estimatesOf (mem_dedupFirstAux he)
  · intro e he
    rcases keys_foldl_insertCount
        (mem_objectKeys he : e ∈ (estimateCountsOf room).map Prod.fst)
      with h' | h'
    · simp at h'
    · exact mem_estimatesOf h'

/-- Counterexample to C6 as stated: with tied votes `"5"` (first-encountered
in enumeration order) and `"8"`, the summary reports `"8"` — the last value in
the enumeration order, not the first. -/
theorem mostCommon_claim_counterexample :
    estimatesOf roomTie = ["5", "8"] ∧
    objectKeys (estimateCountsOf roomTie) = ["5", "8"] ∧
    countOf (estimateCountsOf roomTie) "5"
      = countOf (estimateCountsOf roomTie) "8" ∧
    ((getVotingResults sTie "R1" 2).2).map (fun r => r.summary.mostCommon)
      = some (some "8") ∧
    some ("8" : String) ≠ some "5" := by
  refine ⟨by decide, by decide, by decide, by decide, by decide⟩

/-- Witness for C6 (amended): on the concrete tied room the summary equals
`mostCommonOf`, which is a last-max of the counts, namely `"8"`. -/
theorem mostCommon_spec_witness :
    ((getVotingResults sTie "R1" 2).2).map (fun r => r.summary.mostCommon)
      = some (mostCommonOf roomTie) ∧
    IsLastMax (countOf (estimateCountsOf roomTie))
      (objectKeys (estimateCountsOf roomTie)) (mostCommonOf roomTie) ∧
    mostCommonOf roomTie = some "8" :=
  ⟨(mostCommon_spec sTie "R1" 2 roomTie rfl).1,
   (mostCommon_spec sTie "R1" 2 roomTie rfl).2.2.2.1,
   by decide⟩

/-! ### C1 and C10: reachable-state invariants -/

theorem mapGet_map_val {f : User → User} {m : List (String × User)}
    {k : String} :
    mapGet (m.map (fun p => (p.1, f p.2))) k = (mapGet m k).map f := by
  induction m with
  | nil => rfl
  | cons p ps ih =>
    rw [List.map_cons, mapGet, mapGet]
    split
    · rfl
    · exact ih

theorem mem_mapDelete_of_mem {α : Type} {m : List (String × α)} {k : String}
    {p : String × α} (hp : p ∈ m) (hne : p.1 ≠ k) : p ∈ mapDelete m k := by
  induction m with
  | nil => simp at hp
  | cons q qs ih =>
    rw [mapDelete]
    rcases List.mem_cons.mp hp with rfl | hp'
    · rw [if_neg hne]
      exact List.mem_cons_self _ _
    · split
      · exact ih hp'
      · exact List.mem_cons_of_mem _ (ih hp')

theorem storeOk_set {rooms : List (String × Room)} {rid : String} {r : Room}
    (hall : ∀ p ∈ rooms, RoomOk p.2) (hr : RoomOk r) :
    ∀ p ∈ mapSet rooms rid r, RoomOk p.2 := by
  intro p hp
  rcases mem_mapSet hp with hp' | rfl
  · exact hall p hp'
  · exact hr

theorem storeOk_delete {rooms : List (String × Room)} {rid : String}
    (hall : ∀ p ∈ rooms, RoomOk p.2) :
    ∀ p ∈ mapDelete rooms rid, RoomOk p.2 := by
  intro p hp
  exact hall p (mem_mapDelete hp).1

theorem usersOk_mapSet_same {adminId : String} {users : List (String × User)}
    {k : String} {u u' : User} (h : UsersOk adminId users)
    (hget : mapGet users k = some u) (hid : u'.id = u.id)
    (hadm : u'.isAdmin = u.isAdmin)
    (hvote : u'.hasVoted = u'.estimate.isSome)
    (hne : u'.estimate ≠ some "") :
    UsersOk adminId (mapSet users k u') := by
  obtain ⟨hne0, hnd, hok, ⟨a, ha, haadm⟩, huniq⟩ := h
  have hmem : (k, u) ∈ users := mapGet_eq_some_mem hget
  have hkuser : UserOk k u := hok _ hmem
  have hhas : mapHas users k = true := by rw [mapHas, hget]; rfl
  refine ⟨?_, ?_, ?_, ?_, ?_⟩
  · rw [mapSet, if_pos hhas]
    intro hc
    rw [List.map_eq_nil_iff] at hc
    exact hne0 hc
  · rw [keys_mapSet_of_has _ hhas]
    exact hnd
  · intro p hp
    rcases mem_mapSet hp with hp' | rfl
    · exact hok p hp'
    · exact ⟨hid.trans hkuser.1, hkuser.2.1, hvote, hne⟩
  · by_cases hk : adminId = k
    · subst hk
      refine ⟨u', by rw [mapGet_mapSet_self], ?_⟩
      rw [hadm]
      have : a = u := by rw [ha] at hget; exact (Option.some.inj hget)
      rw [← this]
      exact haadm
    · exact ⟨a, by rw [mapGet_mapSet_ne _ _ hk]; exact ha, haadm⟩
  · intro p hp hpadm
    rcases mem_mapSet hp with hp' | rfl
    · exact huniq p hp' hpadm
    · rw [hadm] at hpadm
      exact huniq (k, u) hmem hpadm

theorem usersOk_map_clear {adminId : String} {users : List (String × User)}
    (h : UsersOk adminId users) :
    UsersOk adminId (users.map (fun p => (p.1, clearVote p.2))) := by
  obtain ⟨hne0, hnd, hok, ⟨a, ha, haadm⟩, huniq⟩ := h
  refine ⟨?_, ?_, ?_, ?_, ?_⟩
  · intro hc
    rw [List.map_eq_nil_iff] at hc
    exact hne0 hc
  · have : (users.map (fun p => (p.1, clearVote p.2))).map Prod.fst
        = users.map Prod.fst := by
      rw [List.map_map]
      rfl
    rw [this]
    exact hnd
  · intro p hp
    rcases List.mem_map.mp hp with ⟨q, hq, rfl⟩
    obtain ⟨h1, h2, _, _⟩ := hok _ hq
    exact ⟨h1, h2, rfl, by simp [clearVote]⟩
  · refine ⟨clearVote a, ?_, haadm⟩
    rw [mapGet_map_val, ha]
    rfl
  · intro p hp hpadm
    rcases List.mem_map.mp hp with ⟨q, hq, rfl⟩
    exact huniq q hq hpadm

/-- `createRoom` preserves the store invariant. -/
theorem storeOk_createRoom {s : RoomService}
    {roomId userId name adminName : String} {now : Nat} (h : StoreOk s)
    (hid : userId ≠ "") :
    StoreOk (createRoom s roomId userId name adminName now) := by
  rw [createRoom]
  intro p hp
  rcases mem_mapSet hp with hp' | rfl
  · exact h p hp'
  · refine ⟨by simp, by simp, ?_, ?_, ?_⟩
    · intro q hq
      rcases List.mem_singleton.mp hq with rfl
      exact ⟨rfl, hid, rfl, by simp⟩
    · exact ⟨{ id := userId, name := adminName, isAdmin := true
               estimate := none, hasVoted := false, joinedAt := now
               connected := true }, by simp [mapGet], rfl⟩
    · intro q hq _
      rcases List.mem_singleton.mp hq with rfl
      rfl

/-- `joinRoom` preserves the store invariant: an admin join is always
rejected while an admin exists, and a fresh non-admin entry changes no admin
state. -/
theorem storeOk_joinRoom {s : RoomService} {roomId userName : String}
    {isAdmin : Bool} {userId : String} {now : Nat} (h : StoreOk s)
    (hfresh : freshUser s userId) (hid : userId ≠ "") :
    StoreOk (joinRoom s roomId userName isAdmin userId now).1 := by
  cases hroom : mapGet s.rooms roomId with
  | none => rw [joinRoom, hroom]; exact h
  | some room =>
    have hroomOk : RoomOk room := h _ (mapGet_eq_some_mem hroom)
    obtain ⟨hne0, hnd, hok, ⟨a, ha, haadm⟩, huniq⟩ := hroomOk
    have hadmne : room.adminId ≠ "" :=
      (hok _ (mapGet_eq_some_mem ha)).2.1
    have hhas : mapHas room.users room.adminId = true := by
      rw [mapHas, ha]; rfl
    rw [joinRoom, hroom]
    simp only
    cases isAdmin with
    | true =>
      rw [if_pos ⟨rfl, hadmne, hhas⟩]
      exact h
    | false =>
      rw [if_neg (by intro hc; exact absurd hc.1 (by simp))]
      simp only [Bool.false_eq_true, if_false]
      have hgetnone : mapGet room.users userId = none :=
        hfresh _ (mapGet_eq_some_mem hroom)
      have hnothas : mapHas room.users userId = false := by
        rw [mapHas, hgetnone]; rfl
      intro p hp
      rcases mem_mapSet hp with hp' | rfl
      · exact h p hp'
      · refine ⟨?_, ?_, ?_, ?_, ?_⟩
        · have hcond : ¬ (mapHas room.users userId = true) := by
            rw [hnothas]; simp
          rw [mapSet, if_neg hcond]
          simp
        · rw [keys_mapSet_of_not_has _ hnothas]
          rw [List.nodup_append]
          refine ⟨hnd, List.nodup_singleton _, ?_⟩
          intro x hx hx'
          rcases List.mem_singleton.mp hx' with rfl
          exact absurd (mapHas_iff_mem_keys.mpr hx) (by rw [hnothas]; simp)
        · intro q hq
          rcases mem_mapSet hq with hq' | rfl
          · exact hok q hq'
          · exact ⟨rfl, hid, rfl, by simp⟩
        · refine ⟨a, ?_, haadm⟩
          have hke : room.adminId ≠ userId := by
            intro hc
            rw [hc, hgetnone] at ha
            exact Option.noConfusion ha
          rw [mapGet_mapSet_ne _ _ hke]
          exact ha
        · intro q hq hqadm
          rcases mem_mapSet hq with hq' | rfl
          · exact huniq q hq' hqadm
          · exact absurd hqadm (by simp)

/-- `updateStory` preserves the store invariant. -/
theorem storeOk_updateStory {s : RoomService} {roomId userId : String}
    {story : Story} {now : Nat} (h : StoreOk s) :
    StoreOk (updateStory s roomId userId story now).1 := by
  cases hroom : mapGet s.rooms roomId with
  | none => rw [updateStory, hroom]; exact h
  | some room =>
    cases huser : mapGet room.users userId with
    | none => rw [updateStory, hroom]; simp only [huser]; exact h
    | some user =>
      rw [updateStory, hroom]
      simp only [huser]
      split
      · exact storeOk_set h (h _ (mapGet_eq_some_mem hroom))
      · exact h

/-- `revealVotes` preserves the store invariant. -/
theorem storeOk_revealVotes {s : RoomService} {roomId userId : String}
    {now : Nat} (h : StoreOk s) :
    StoreOk (revealVotes s roomId userId now).1 := by
  cases hroom : mapGet s.rooms roomId with
  | none => rw [revealVotes, hroom]; exact h
  | some room =>
    cases huser : mapGet room.users userId with
    | none => rw [revealVotes, hroom]; simp only [huser]; exact h
    | some user =>
      rw [revealVotes, hroom]
      simp only [huser]
      split
      · exact storeOk_set h (h _ (mapGet_eq_some_mem hroom))
      · exact h

/-- `getRoom` preserves the store invariant. -/
theorem storeOk_getRoom {s : RoomService} {roomId : String} {now : Nat}
    (h : StoreOk s) : StoreOk (getRoom s roomId now).1 := by
  cases hroom : mapGet s.rooms roomId with
  | none => rw [getRoom, hroom]; exact h
  | some room =>
    rw [getRoom, hroom]
    exact storeOk_set h (h _ (mapGet_eq_some_mem hroom))

/-- `submitVote` preserves the store invariant. -/
theorem storeOk_submitVote {s : RoomService} {roomId userId est : String}
    {now : Nat} (h : StoreOk s) :
    StoreOk (submitVote s roomId userId est now).1 := by
  cases hroom : mapGet s.rooms roomId with
  | none => rw [submitVote, hroom]; exact h
  | some room =>
    cases huser : mapGet room.users userId with
    | none => rw [submitVote, hroom]; simp only [huser]; exact h
    | some user =>
      rw [submitVote, hroom]
      simp only [huser]
      split
      · exact h
      · apply storeOk_set h
        have hroomOk : RoomOk room := h _ (mapGet_eq_some_mem hroom)
        by_cases hest : est = ""
        · rw [if_pos hest]
          exact usersOk_mapSet_same hroomOk huser rfl rfl rfl (by simp)
        · rw [if_neg hest]
          exact usersOk_mapSet_same hroomOk huser rfl rfl rfl (by simp [hest])

/-- `resetVoting` preserves the store invariant. -/
theorem storeOk_resetVoting {s : RoomService} {roomId userId : String}
    {now : Nat} (h : StoreOk s) :
    StoreOk (resetVoting s roomId userId now).1 := by
  cases hroom : mapGet s.rooms roomId with
  | none => rw [resetVoting, hroom]; exact h
  | some room =>
    cases huser : mapGet room.users userId with
    | none => rw [resetVoting, hroom]; simp only [huser]; exact h
    | some user =>
      rw [resetVoting, hroom]
      simp only [huser]
      split
      · exact storeOk_set h (usersOk_map_clear (h _ (mapGet_eq_some_mem hroom)))
      · exact h

/-- The `start-estimation` handler preserves the store invariant. -/
theorem storeOk_startEstimation {s : RoomService} {roomId userId : String}
    {now : Nat} (h : StoreOk s) :
    StoreOk (startEstimation s roomId userId now).1 := by
  cases hroom : mapGet s.rooms roomId with
  | none => rw [startEstimation, getRoom, hroom]; exact h
  | some room =>
    rw [startEstimation, getRoom, hroom]
    simp only
    have hs1 : ∀ p ∈ mapSet s.rooms roomId
        ({ room with lastActivity := now } : Room), RoomOk p.2 :=
      storeOk_set h (h _ (mapGet_eq_some_mem hroom))
    cases huser : mapGet ({ room with lastActivity := now } : Room).users
        userId with
    | none => simp only [huser]; exact hs1
    | some user =>
      simp only [huser]
      split
      · exact storeOk_set hs1 (usersOk_map_clear (h _ (mapGet_eq_some_mem hroom)))
      · exact hs1

/-- The connection-status walk preserves the store invariant. -/
theorem storeOk_updConnRooms {rooms : List (String × Room)} {userId : String}
    {connected : Bool} {now : Nat} (h : ∀ p ∈ rooms, RoomOk p.2) :
    ∀ p ∈ updConnRooms userId connected now rooms, RoomOk p.2 := by
  induction rooms with
  | nil => intro p hp; simp [updConnRooms] at hp
  | cons q qs ih =>
    obtain ⟨rid, r⟩ := q
    intro p hp
    rw [updConnRooms] at hp
    revert hp
    cases huser : mapGet r.users userId with
    | none =>
      intro hp
      rcases List.mem_cons.mp hp with rfl | hp'
      · exact h _ (List.mem_cons_self _ _)
      · exact ih (fun q hq => h q (List.mem_cons_of_mem _ hq)) p hp'
    | some u =>
      intro hp
      rcases List.mem_cons.mp hp with rfl | hp'
      · have hr : RoomOk r := h _ (List.mem_cons_self _ _)
        have huok : UserOk userId u := hr.2.2.1 _ (mapGet_eq_some_mem huser)
        exact usersOk_mapSet_same hr huser rfl rfl
          (by simp [huok.2.2.1]) huok.2.2.2
      · exact h p (List.mem_cons_of_mem _ hp')

/-- `setUserSocket` preserves the store invariant. -/
theorem storeOk_setUserSocket {s : RoomService} {userId socketId : String}
    {now : Nat} (h : StoreOk s) :
    StoreOk (setUserSocket s userId socketId now) := by
  rw [setUserSocket, updateUserConnectionStatus]
  exact storeOk_updConnRooms h

/-- `removeUserSocket` preserves the store invariant. -/
theorem storeOk_removeUserSocket {s : RoomService} {socketId : String}
    {now : Nat} (h : StoreOk s) :
    StoreOk (removeUserSocket s socketId now).1 := by
  cases hu : mapGet s.socketUsers socketId with
  | none => rw [removeUserSocket, hu]; exact h
  | some userId =>
    rw [removeUserSocket, hu]
    simp only
    rw [updateUserConnectionStatus]
    exact storeOk_updConnRooms h

/-- `leaveRoom` preserves the store invariant: a departing non-admin leaves
the admin in place; a departing admin either empties the room (which is then
destroyed) or promotes the first remaining participant. -/
theorem storeOk_leaveRoom {s : RoomService} {roomId userId : String}
    {now : Nat} (h : StoreOk s) :
    StoreOk (leaveRoom s roomId userId now).1 := by
  cases hroom : mapGet s.rooms roomId with
  | none => rw [leaveRoom, hroom]; exact h
  | some room =>
    cases huser : mapGet room.users userId with
    | none => rw [leaveRoom, hroom]; simp only [huser]; exact h
    | some user =>
      have hroomOk : RoomOk room := h _ (mapGet_eq_some_mem hroom)
      obtain ⟨hne0, hnd, hok, ⟨a, ha, haadm⟩, huniq⟩ := hroomOk
      rw [leaveRoom, hroom]
      simp only [huser]
      cases hadm : user.isAdmin with
      | false =>
        have hune : userId ≠ room.adminId := by
          intro hc
          rw [hc] at huser
          rw [huser] at ha
          have hau : user = a := Option.some.inj ha
          rw [← hau] at haadm
          rw [hadm] at haadm
          exact Bool.noConfusion haadm
        have hamem : (room.adminId, a) ∈ mapDelete room.users userId :=
          mem_mapDelete_of_mem (mapGet_eq_some_mem ha) (Ne.symm hune)
        cases hrem : mapDelete room.users userId with
        | nil => rw [hrem] at hamem; simp at hamem
        | cons p0 rest =>
          obtain ⟨k0, u0⟩ := p0
          simp only [Bool.false_eq_true, if_false, List.isEmpty_cons]
          refine storeOk_set h ?_
          refine ⟨by simp, ?_, ?_, ?_, ?_⟩
          · rw [← hrem]
            exact hnd.sublist (keys_mapDelete_sublist room.users userId)
          · intro q hq
            rw [← hrem] at hq
            exact hok q (mem_mapDelete hq).1
          · refine ⟨a, ?_, haadm⟩
            rw [← hrem, mapGet_mapDelete_ne _ (Ne.symm hune)]
            exact ha
          · intro q hq hqadm
            rw [← hrem] at hq
            exact huniq q (mem_mapDelete hq).1 hqadm
      | true =>
        cases hrem : mapDelete room.users userId with
        | nil => exact storeOk_delete h
        | cons p0 rest =>
          obtain ⟨k0, u0⟩ := p0
          have hmem0 : (k0, u0) ∈ mapDelete room.users userId := by
            rw [hrem]; exact List.mem_cons_self _ _
          have hk0 : k0 ≠ userId := (mem_mapDelete hmem0).2
          have hmem0u : (k0, u0) ∈ room.users := (mem_mapDelete hmem0).1
          have huok0 : UserOk k0 u0 := hok _ hmem0u
          have hne2 : (mapSet ((k0, u0) :: rest) k0
              ({ u0 with isAdmin := true } : User)).isEmpty = false := by
            simp [mapSet, mapHas, mapGet]
          simp only [reduceIte, hne2, Bool.false_eq_true, if_false]
          refine storeOk_set h ?_
          have hget0 : mapGet ((k0, u0) :: rest) k0 = some u0 := by
            simp [mapGet]
          have hhas0 : mapHas ((k0, u0) :: rest) k0 = true := by
            rw [mapHas, hget0]; rfl
          have hndrem : (((k0, u0) :: rest).map Prod.fst).Nodup := by
            rw [← hrem]
            exact hnd.sublist (keys_mapDelete_sublist room.users userId)
          refine ⟨?_, ?_, ?_, ?_, ?_⟩
          · show mapSet ((k0, u0) :: rest) k0 ({ u0 with isAdmin := true }) ≠ []
            intro hc
            rw [hc] at hne2
            simp at hne2
          · show (List.map Prod.fst
              (mapSet ((k0, u0) :: rest) k0 ({ u0 with isAdmin := true }))).Nodup
            rw [keys_mapSet_of_has _ hhas0]
            exact hndrem
          · intro q hq
            rcases mem_mapSet hq with hq' | rfl
            · rw [← hrem] at hq'
              exact hok q (mem_mapDelete hq').1
            · exact ⟨huok0.1, huok0.2.1, huok0.2.2.1, huok0.2.2.2⟩
          · exact ⟨{ u0 with isAdmin := true },
              by rw [huok0.1, mapGet_mapSet_self], rfl⟩
          · intro q hq hqadm
            rcases mem_mapSet hq with hq' | rfl
            · exfalso
              rw [← hrem] at hq'
              have h1 : q.1 = room.adminId :=
                huniq q (mem_mapDelete hq').1 hqadm
              have h2 : userId = room.adminId :=
                huniq _ (mapGet_eq_some_mem huser) hadm
              exact (mem_mapDelete hq').2 (h1.trans h2.symm)
            · exact huok0.1.symm

/-- Every reachable store satisfies the invariant. -/
theorem reachable_storeOk {s : RoomService} (h : Reachable s) : StoreOk s := by
  induction h with
  | init => intro p hp; simp at hp
  | createRoom _ h1 h2 ih => exact storeOk_createRoom ih h2
  | joinRoom _ hf h2 ih => exact storeOk_joinRoom ih hf h2
  | leaveRoom _ ih => exact storeOk_leaveRoom ih
  | updateStory _ ih => exact storeOk_updateStory ih
  | submitVote _ ih => exact storeOk_submitVote ih
  | revealVotes _ ih => exact storeOk_revealVotes ih
  | resetVoting _ ih => exact storeOk_resetVoting ih
  | startEstimation _ ih => exact storeOk_startEstimation ih
  | getRoom _ ih => exact storeOk_getRoom ih
  | setUserSocket _ ih => exact storeOk_setUserSocket ih
  | removeUserSocket _ ih => exact storeOk_removeUserSocket ih

/-- A well-formed participant map has exactly one admin-flagged entry. -/
theorem single_admin_filter {adminId : String} {users : List (String × User)}
    (h : UsersOk adminId users) :
    (users.filter (fun q => q.2.isAdmin)).length = 1 := by
  obtain ⟨hne0, hnd, hok, ⟨a, ha, haadm⟩, huniq⟩ := h
  have hmemf : (adminId, a) ∈ users.filter (fun q => q.2.isAdmin) :=
    List.mem_filter.mpr ⟨mapGet_eq_some_mem ha, haadm⟩
  have hallk : ∀ q ∈ users.filter (fun q => q.2.isAdmin), q.1 = adminId := by
    intro q hq
    rcases List.mem_filter.mp hq with ⟨hq1, hq2⟩
    exact huniq q hq1 hq2
  have hndf : ((users.filter (fun q => q.2.isAdmin)).map Prod.fst).Nodup :=
    hnd.sublist ((List.filter_sublist _).map Prod.fst)
  cases hf : users.filter (fun q => q.2.isAdmin) with
  | nil => rw [hf] at hmemf; simp at hmemf
  | cons x xs =>
    cases xs with
    | nil => rfl
    | cons y ys =>
      exfalso
      rw [hf] at hallk hndf
      have hx : x.1 = adminId := hallk x (List.mem_cons_self _ _)
      have hy : y.1 = adminId :=
        hallk y (List.mem_cons_of_mem _ (List.mem_cons_self _ _))
      rw [List.map_cons, List.map_cons, List.nodup_cons] at hndf
      exact hndf.1 (List.mem_cons.mpr (Or.inl (hx.trans hy.symm)))

/-- C1: in every state reachable by any sequence of store operations, every
room present in the store is non-empty and has exactly one participant whose
admin flag is set, and the room's `adminId` names exactly that participant;
an emptied room is never present. -/
theorem admin_invariant {s : RoomService} (h : Reachable s) : AdminProp s := by
  intro p hp
  have hroomOk : RoomOk p.2 := reachable_storeOk h p hp
  obtain ⟨hne0, hnd, hok, ⟨a, ha, haadm⟩, huniq⟩ := hroomOk
  refine ⟨hne0,
    single_admin_filter ⟨hne0, hnd, hok, ⟨a, ha, haadm⟩, huniq⟩, ?_⟩
  rw [ha]
  simp only [Option.map_some']
  have haid : a.id = p.2.adminId := (hok _ (mapGet_eq_some_mem ha)).1
  rw [haadm, haid]
  simp

/-- Witness for C1: the invariant holds in the concrete reachable store
where Alice created a room and Bob joined. -/
theorem admin_invariant_witness : AdminProp sAliceBob :=
  admin_invariant (Reachable.joinRoom
    (Reachable.createRoom Reachable.init rfl (by decide))
    (by unfold freshUser; decide) (by decide))

/-- C10: in every reachable store state, for every participant of every
room, `hasVoted` is true iff the stored vote is present, and a present vote is
a non-empty string. -/
theorem vote_invariant {s : RoomService} (h : Reachable s) : VoteProp s := by
  intro p hp q hq
  have huq := (reachable_storeOk h p hp).2.2.1 q hq
  exact ⟨huq.2.2.1, huq.2.2.2⟩

/-- Witness for C10: the invariant holds in the concrete reachable store
after Bob and Alice have voted. -/
theorem vote_invariant_witness : VoteProp sVotes :=
  vote_invariant (Reachable.submitVote (Reachable.submitVote
    (Reachable.joinRoom
      (Reachable.createRoom Reachable.init rfl (by decide))
      (by unfold freshUser; decide) (by decide))))

/-! ### C5: connection bindings and the connected flag (amended,
partly modelled from the spec) -/

/-- With distinct keys, membership determines the lookup. -/
theorem mapGet_of_mem_nodup {α : Type} {m : List (String × α)}
    (hnd : (m.map Prod.fst).Nodup) {p : String × α} (hp : p ∈ m) :
    mapGet m p.1 = some p.2 := by
  induction m with
  | nil => simp at hp
  | cons q qs ih =>
    rw [List.map_cons, List.nodup_cons] at hnd
    rcases List.mem_cons.mp hp with rfl | hp'
    · rw [mapGet, if_pos rfl]
    · have hne : q.1 ≠ p.1 := by
        intro hc
        exact hnd.1 (hc ▸ List.mem_map_of_mem Prod.fst hp')
      rw [mapGet, if_neg hne]
      exact ih hnd.2 hp'

theorem mem_mapSet_of_ne {α : Type} {m : List (String × α)} {k : String}
    {v : α} {p : String × α} (hp : p ∈ m) (hne : p.1 ≠ k) :
    p ∈ mapSet m k v := by
  rw [mapSet]
  split
  · refine List.mem_map.mpr ⟨p, hp, ?_⟩
    rw [if_neg hne]
  · exact List.mem_append_left _ hp

theorem hasActive_of_mapGet {m : List (String × String)} {c u : String}
    (h : mapGet m c = some u) : m.any (fun p => p.2 = u) = true := by
  rw [List.any_eq_true]
  exact ⟨(c, u), mapGet_eq_some_mem h, by simp⟩

theorem any_mapSet_ne {m : List (String × String)} {c u x : String}
    (hnd : (m.map Prod.fst).Nodup)
    (hfresh : ∀ u2, mapGet m c = some u2 → u2 = u) (hx : x ≠ u) :
    (mapSet m c u).any (fun p => p.2 = x) = m.any (fun p => p.2 = x) := by
  rcases hb : m.any (fun p => p.2 = x) with _ | _
  · rw [List.any_eq_false] at hb
    rw [List.any_eq_false]
    intro p hp
    rcases mem_mapSet hp with hp' | rfl
    · exact hb p hp'
    · simp [Ne.symm hx]
  · rw [List.any_eq_true] at hb
    obtain ⟨p, hp, hpx⟩ := hb
    have hpx' : p.2 = x := by simpa using hpx
    rw [List.any_eq_true]
    have hpc : p.1 ≠ c := by
      intro hc
      have hg := mapGet_of_mem_nodup hnd hp
      rw [hc] at hg
      have hpu := hfresh p.2 hg
      exact hx ((hpu.symm.trans hpx').symm)
    exact ⟨p, mem_mapSet_of_ne hp hpc, by simp [hpx']⟩

theorem any_mapDelete_ne {m : List (String × String)} {c u x : String}
    (hnd : (m.map Prod.fst).Nodup) (hget : mapGet m c = some u) (hx : x ≠ u) :
    (mapDelete m c).any (fun p => p.2 = x) = m.any (fun p => p.2 = x) := by
  rcases hb : m.any (fun p => p.2 = x) with _ | _
  · rw [List.any_eq_false] at hb
    rw [List.any_eq_false]
    intro p hp
    exact hb p (mem_mapDelete hp).1
  · rw [List.any_eq_true] at hb
    obtain ⟨p, hp, hpx⟩ := hb
    have hpx' : p.2 = x := by simpa using hpx
    have hpc : p.1 ≠ c := by
      intro hc
      have hg := mapGet_of_mem_nodup hnd hp
      rw [hc] at hg
      rw [hg] at hget
      have hpu : p.2 = u := Option.some.inj hget
      exact hx ((hpu.symm.trans hpx').symm)
    rw [List.any_eq_true]
    exact ⟨p, mem_mapDelete_of_mem hp hpc, by simp [hpx']⟩

/-- `updateUserConnectionStatus` either finds no room containing the user
and leaves the list unchanged, or rewrites exactly the first room containing
the user (the `break`). -/
theorem updConnRooms_split (uid : String) (c : Bool) (now : Nat)
    (rooms : List (String × Room)) :
    ((∀ p ∈ rooms, mapGet p.2.users uid = none) ∧
      updConnRooms uid c now rooms = rooms) ∨
    (∃ l1 k r u l2, rooms = l1 ++ (k, r) :: l2 ∧
      (∀ p ∈ l1, mapGet p.2.users uid = none) ∧
      mapGet r.users uid = some u ∧
      updConnRooms uid c now rooms =
        l1 ++ (k, { r with
          users := mapSet r.users uid { u with connected := c }
          lastActivity := now }) :: l2) := by
  induction rooms with
  | nil => exact Or.inl ⟨by simp, rfl⟩
  | cons p0 rest ih =>
    obtain ⟨k0, r0⟩ := p0
    cases hu : mapGet r0.users uid with
    | some u0 =>
      refine Or.inr ⟨[], k0, r0, u0, rest, rfl, by simp, hu, ?_⟩
      rw [updConnRooms, hu]
      rfl
    | none =>
      rcases ih with ⟨hall, heq⟩ | ⟨l1, k, r, u, l2, hsplit, hl1, hget, heq⟩
      · refine Or.inl ⟨?_, ?_⟩
        · intro p hp
          rcases List.mem_cons.mp hp with rfl | hp'
          · exact hu
          · exact hall p hp'
        · rw [updConnRooms, hu, heq]
      · refine Or.inr ⟨(k0, r0) :: l1, k, r, u, l2, by rw [hsplit]; rfl, ?_,
          hget, ?_⟩
        · intro p hp
          rcases List.mem_cons.mp hp with rfl | hp'
          · exact hu
          · exact hl1 p hp'
        · rw [updConnRooms, hu, heq]
          rfl

theorem updConnRooms_keys_shape (uid : String) (cflag : Bool) (now : Nat)
    (rooms : List (String × Room)) :
    (updConnRooms uid cflag now rooms).map Prod.fst = rooms.map Prod.fst ∧
    (∀ p2 ∈ updConnRooms uid cflag now rooms, ∃ p ∈ rooms,
      p2.1 = p.1 ∧ p2.2.users.map Prod.fst = p.2.users.map Prod.fst) ∧
    (∀ p ∈ rooms, ∃ p2 ∈ updConnRooms uid cflag now rooms,
      p2.1 = p.1 ∧ p2.2.users.map Prod.fst = p.2.users.map Prod.fst) := by
  induction rooms with
  | nil => exact ⟨rfl, by simp [updConnRooms], by simp⟩
  | cons p0 rest ih =>
    obtain ⟨k0, r0⟩ := p0
    rw [updConnRooms]
    cases hu : mapGet r0.users uid with
    | some u0 =>
      have hhas : mapHas r0.users uid = true := by rw [mapHas, hu]; rfl
      refine ⟨?_, ?_, ?_⟩
      · rw [List.map_cons, List.map_cons]
      · intro p2 hp2
        rcases List.mem_cons.mp hp2 with rfl | hp2'
        · exact ⟨(k0, r0), List.mem_cons_self _ _, rfl,
            keys_mapSet_of_has _ hhas⟩
        · exact ⟨p2, List.mem_cons_of_mem _ hp2', rfl, rfl⟩
      · intro p hp
        rcases List.mem_cons.mp hp with rfl | hp'
        · exact ⟨(k0, { r0 with
            users := mapSet r0.users uid { u0 with connected := cflag }
            lastActivity := now }), List.mem_cons_self _ _, rfl,
            keys_mapSet_of_has _ hhas⟩
        · exact ⟨p, List.mem_cons_of_mem _ hp', rfl, rfl⟩
    | none =>
      refine ⟨?_, ?_, ?_⟩
      · rw [List.map_cons, List.map_cons, ih.1]
      · intro p2 hp2
        rcases List.mem_cons.mp hp2 with rfl | hp2'
        · exact ⟨(k0, r0), List.mem_cons_self _ _, rfl, rfl⟩
        · obtain ⟨p, hp, h1, h2⟩ := ih.2.1 p2 hp2'
          exact ⟨p, List.mem_cons_of_mem _ hp, h1, h2⟩
      · intro p hp
        rcases List.mem_cons.mp hp with rfl | hp'
        · exact ⟨(k0, r0), List.mem_cons_self _ _, rfl, rfl⟩
        · obtain ⟨p2, hp2, h1, h2⟩ := ih.2.2 p hp'
          exact ⟨p2, List.mem_cons_of_mem _ hp2, h1, h2⟩

/-- Core preservation: if every participant other than `uid` already agrees
with the new channel table `g` and `g uid` equals the flag being written, the
room walk re-establishes the invariant. -/
theorem connInv_upd {rooms : List (String × Room)} {uid : String}
    {cflag : Bool} {now : Nat} {g : String → Bool}
    (hndr : (rooms.map Prod.fst).Nodup)
    (hndu : ∀ p ∈ rooms, (p.2.users.map Prod.fst).Nodup)
    (huniqK : ∀ p ∈ rooms, ∀ k, mapHas p.2.users k = true →
      ∀ p2 ∈ rooms, mapHas p2.2.users k = true → p2.1 = p.1)
    (hold : ∀ p ∈ rooms, ∀ q ∈ p.2.users, q.1 ≠ uid →
      q.2.connected = g q.1)
    (hg : g uid = cflag) :
    ∀ p ∈ updConnRooms uid cflag now rooms, ∀ q ∈ p.2.users,
      q.2.connected = g q.1 := by
  have hkeyne : ∀ p ∈ rooms, mapGet p.2.users uid = none →
      ∀ q ∈ p.2.users, q.1 ≠ uid := by
    intro p hp hnone q hq hc
    rw [← hc] at hnone
    rw [mapGet_of_mem_nodup (hndu p hp) hq] at hnone
    exact Option.noConfusion hnone
  rcases updConnRooms_split uid cflag now rooms with
    ⟨hall, heq⟩ | ⟨l1, k, r, u, l2, hsplit, hl1, hget, heq⟩
  · rw [heq]
    intro p hp q hq
    exact hold p hp q hq (hkeyne p hp (hall p hp) q hq)
  · rw [heq]
    have hkmem : (k, r) ∈ rooms := by
      rw [hsplit]
      exact List.mem_append_right _ (List.mem_cons_self _ _)
    have hndk : (r.users.map Prod.fst).Nodup := hndu _ hkmem
    have hhas : mapHas r.users uid = true := by rw [mapHas, hget]; rfl
    intro p hp q hq
    rcases List.mem_append.mp hp with hp1 | hp2
    · have hpr : p ∈ rooms := by
        rw [hsplit]
        exact List.mem_append_left _ hp1
      exact hold p hpr q hq (hkeyne p hpr (hl1 p hp1) q hq)
    · rcases List.mem_cons.mp hp2 with rfl | hp3
      · by_cases hquid : q.1 = uid
        · have hndset : ((mapSet r.users uid
              { u with connected := cflag }).map Prod.fst).Nodup := by
            rw [keys_mapSet_of_has _ hhas]
            exact hndk
          have hq2 := mapGet_of_mem_nodup hndset hq
          rw [hquid, mapGet_mapSet_self] at hq2
          have hqv : q.2 = { u with connected := cflag } :=
            (Option.some.inj hq2).symm
          rw [hqv, hquid, hg]
        · rcases mem_mapSet hq with hq' | rfl
          · exact hold _ hkmem q hq' hquid
          · exact absurd rfl hquid
      · have hpr : p ∈ rooms := by
          rw [hsplit]
          exact List.mem_append_right _ (List.mem_cons_of_mem _ hp3)
        have hquid : q.1 ≠ uid := by
          intro hc
          have hqhas : mapHas p.2.users q.1 = true := by
            rw [mapHas, mapGet_of_mem_nodup (hndu p hpr) hq]
            rfl
          have := huniqK p hpr q.1 hqhas (k, r) hkmem (by rw [hc]; exact hhas)
          have hkeys : (rooms.map Prod.fst).Nodup := hndr
          rw [hsplit] at hkeys
          rw [List.map_append, List.map_cons] at hkeys
          rcases List.nodup_append.mp hkeys with ⟨_, hnd2, _⟩
          rw [List.nodup_cons] at hnd2
          exact hnd2.1 (this ▸ List.mem_map_of_mem Prod.fst hp3)
        exact hold p hpr q hq hquid

theorem uniqK_of_uniq {s : RoomService}
    (huniq : ∀ p ∈ s.rooms, ∀ q ∈ p.2.users, ∀ p2 ∈ s.rooms,
      mapHas p2.2.users q.1 = true → p2.1 = p.1) :
    ∀ p ∈ s.rooms, ∀ k, mapHas p.2.users k = true →
      ∀ p2 ∈ s.rooms, mapHas p2.2.users k = true → p2.1 = p.1 := by
  intro p hp k hk p2 hp2 hk2
  rw [mapHas] at hk
  rcases Option.isSome_iff_exists.mp hk with ⟨v, hv⟩
  exact huniq p hp (k, v) (mapGet_eq_some_mem hv) p2 hp2 hk2

theorem roomsWF_transfer {s s2 : RoomService}
    (hkeys : s2.rooms.map Prod.fst = s.rooms.map Prod.fst)
    (hfw : ∀ p2 ∈ s2.rooms, ∃ p ∈ s.rooms, p2.1 = p.1 ∧
      p2.2.users.map Prod.fst = p.2.users.map Prod.fst)
    (hsock : (s2.socketUsers.map Prod.fst).Nodup)
    (hwf : RoomsWF s) : RoomsWF s2 := by
  obtain ⟨hndr, huniq, hndu, _⟩ := hwf
  refine ⟨by rw [hkeys]; exact hndr, ?_, ?_, hsock⟩
  · intro p2 hp2 q hq p3 hp3 hhas3
    obtain ⟨p, hp, hpk, hpu⟩ := hfw p2 hp2
    obtain ⟨p4, hp4, hp4k, hp4u⟩ := hfw p3 hp3
    have hqk : mapHas p.2.users q.1 = true := by
      rw [mapHas_iff_mem_keys, ← hpu]
      exact List.mem_map_of_mem Prod.fst hq
    have hq4 : mapHas p4.2.users q.1 = true := by
      rw [mapHas_iff_mem_keys, ← hp4u]
      rw [← mapHas_iff_mem_keys]
      exact hhas3
    have := uniqK_of_uniq huniq p hp q.1 hqk p4 hp4 hq4
    rw [hp4k, hpk]
    exact this
  · intro p2 hp2
    obtain ⟨p, hp, _, hpu⟩ := hfw p2 hp2
    rw [hpu]
    exact hndu p hp

/-- Binding a channel (to a fresh channel id, or re-binding the same
participant's id) preserves the invariant and well-formedness. -/
theorem connStep_bind {s : RoomService} {uid c : String} {now : Nat}
    (hinv : ConnInv s) (hwf : RoomsWF s)
    (hfresh : ∀ u2, mapGet s.socketUsers c = some u2 → u2 = uid) :
    ConnInv (setUserSocket s uid c now) ∧
    RoomsWF (setUserSocket s uid c now) := by
  obtain ⟨hndr, huniq, hndu, hnds⟩ := hwf
  have hA : ∀ x, x ≠ uid →
      hasActiveSocket (setUserSocket s uid c now) x = hasActiveSocket s x := by
    intro x hx
    show (mapSet s.socketUsers c uid).any (fun p => p.2 = x)
      = s.socketUsers.any (fun p => p.2 = x)
    exact any_mapSet_ne hnds hfresh hx
  have hAuid : hasActiveSocket (setUserSocket s uid c now) uid = true := by
    show (mapSet s.socketUsers c uid).any (fun p => p.2 = uid) = true
    exact hasActive_of_mapGet (mapGet_mapSet_self _ _ _)
  obtain ⟨hkeys, hfw, _⟩ := updConnRooms_keys_shape uid true now s.rooms
  constructor
  · intro p hp q hq
    exact connInv_upd hndr hndu (uniqK_of_uniq huniq)
      (fun p hp q hq hne => (hinv p hp q hq).trans (hA q.1 hne).symm)
      hAuid p hp q hq
  · refine roomsWF_transfer hkeys hfw ?_ ⟨hndr, huniq, hndu, hnds⟩
    show ((mapSet s.socketUsers c uid).map Prod.fst).Nodup
    cases hgc : mapGet s.socketUsers c with
    | some u2 =>
      rw [keys_mapSet_of_has _ (by rw [mapHas, hgc]; rfl)]
      exact hnds
    | none =>
      rw [keys_mapSet_of_not_has _ (by rw [mapHas, hgc]; rfl)]
      rw [List.nodup_append]
      refine ⟨hnds, List.nodup_singleton _, ?_⟩
      intro x hx hx2
      rcases List.mem_singleton.mp hx2 with rfl
      have := mapHas_iff_mem_keys.mpr hx
      rw [mapHas, hgc] at this
      exact Bool.noConfusion this

/-- The `disconnect` handler preserves the invariant: it unbinds only the
closing channel and flips the participant to disconnected only when no other
channel remains bound to them. -/
theorem connStep_unbind {s : RoomService} (c : String) (now : Nat)
    (hinv : ConnInv s) (hwf : RoomsWF s) :
    ConnInv (disconnectHandler s c now) ∧
    RoomsWF (disconnectHandler s c now) := by
  obtain ⟨hndr, huniq, hndu, hnds⟩ := hwf
  cases hc : mapGet s.socketUsers c with
  | none =>
    rw [disconnectHandler, getUserBySocketId, hc]
    exact ⟨hinv, hndr, huniq, hndu, hnds⟩
  | some uid =>
    rw [disconnectHandler, getUserBySocketId, hc]
    simp only
    have hs1sock : (removeSocketMapping s c).socketUsers
        = mapDelete s.socketUsers c := by
      rw [removeSocketMapping, hc]
    have hs1rooms : (removeSocketMapping s c).rooms = s.rooms := by
      rw [removeSocketMapping, hc]
    have hA : ∀ x, x ≠ uid →
        hasActiveSocket (removeSocketMapping s c) x = hasActiveSocket s x := by
      intro x hx
      rw [hasActiveSocket, hasActiveSocket, hs1sock]
      exact any_mapDelete_ne hnds hc hx
    have hndsd : ((removeSocketMapping s c).socketUsers.map Prod.fst).Nodup := by
      rw [hs1sock]
      exact hnds.sublist (keys_mapDelete_sublist _ _)
    have hwf1 : RoomsWF (removeSocketMapping s c) := by
      refine ⟨?_, ?_, ?_, hndsd⟩
      · rw [hs1rooms]; exact hndr
      · rw [hs1rooms]; exact huniq
      · rw [hs1rooms]; exact hndu
    split
    · next hact =>
      refine ⟨?_, hwf1⟩
      intro p hp q hq
      rw [hs1rooms] at hp
      by_cases hx : q.1 = uid
      · have h1 : q.2.connected = hasActiveSocket s q.1 := hinv p hp q hq
        rw [hx] at h1
        have h2 : hasActiveSocket s uid = true := by
          rw [hasActiveSocket]
          exact hasActive_of_mapGet hc
        rw [hx, h1, h2, hact]
      · exact (hinv p hp q hq).trans (hA q.1 hx).symm
    · next hact =>
      have hnact : hasActiveSocket (removeSocketMapping s c) uid = false := by
        rcases h2 : hasActiveSocket (removeSocketMapping s c) uid with _ | _
        · rfl
        · exact absurd h2 hact
      rw [markUserDisconnected, updateUserConnectionStatus]
      obtain ⟨hkeys, hfw, _⟩ :=
        updConnRooms_keys_shape uid false now (removeSocketMapping s c).rooms
      constructor
      · intro p hp q hq
        refine connInv_upd ?_ ?_ ?_ ?_ hnact p hp q hq
        · rw [hs1rooms]; exact hndr
        · rw [hs1rooms]; exact hndu
        · rw [hs1rooms]
          intro p hp k hk p2 hp2 hk2
          exact uniqK_of_uniq huniq p hp k hk p2 hp2 hk2
        · rw [hs1rooms]
          intro p hp q hq hne
          exact (hinv p hp q hq).trans (hA q.1 hne).symm
      · refine roomsWF_transfer ?_ ?_ hndsd hwf1
        · exact hkeys
        · exact hfw

/-- C5 (amended): after any good sequence of channel bind and unbind
operations - one in which no bind re-binds a channel id currently bound to a
different participant - every participant's connected flag is true iff at
least one channel identifier is currently bound to them; in particular a
participant with two bound channels stays connected when one is unbound and
flips to disconnected only when the last one is removed (see the witness). -/
theorem connection_invariant (s : RoomService) (now : Nat)
    (ops : List ConnOp) (hinv : ConnInv s) (hwf : RoomsWF s)
    (hgood : goodOps s now ops = true) :
    ConnInv (applyConnOps s now ops) ∧ RoomsWF (applyConnOps s now ops) := by
  induction ops generalizing s with
  | nil => exact ⟨hinv, hwf⟩
  | cons op ops ih =>
    cases op with
    | bind u c =>
      rw [goodOps, Bool.and_eq_true] at hgood
      have hfresh : ∀ u2, mapGet s.socketUsers c = some u2 → u2 = u := by
        intro u2 hu2
        have h1 := hgood.1
        rw [hu2] at h1
        exact eq_of_beq h1
      obtain ⟨hinv2, hwf2⟩ := connStep_bind hinv hwf hfresh
      exact ih _ hinv2 hwf2 hgood.2
    | unbind c =>
      rw [goodOps] at hgood
      obtain ⟨hinv2, hwf2⟩ := connStep_unbind c now hinv hwf
      exact ih _ hinv2 hwf2 hgood

/-- Counterexample to C5 as stated: from an invariant-satisfying store, the
bind sequence `bind(u1, c); bind(u2, c)` (the source's `setUserSocket`
re-binding channel `c`) leaves Alice's connected flag true with zero channels
bound to her, so the claimed iff fails after a sequence of bind operations. -/
theorem connection_claim_counterexample :
    ConnInv sConn0 ∧ RoomsWF sConn0 ∧
    ¬ ConnInv (applyConnOps sConn0 10
        [ConnOp.bind "u1" "c", ConnOp.bind "u2" "c"]) ∧
    (mapGet (applyConnOps sConn0 10
        [ConnOp.bind "u1" "c", ConnOp.bind "u2" "c"]).rooms "R1").map
      (fun r => (mapGet r.users "u1").map User.connected)
      = some (some true) ∧
    hasActiveSocket (applyConnOps sConn0 10
      [ConnOp.bind "u1" "c", ConnOp.bind "u2" "c"]) "u1" = false := by
  exact ⟨by decide, by decide, by decide, by decide, by decide⟩

/-- Witness for C5 (amended): Alice binds two channels and closes one - the
invariant holds and she stays connected; closing the second flips her to
disconnected. -/
theorem connection_invariant_witness :
    ConnInv (applyConnOps sConn0 10
      [ConnOp.bind "u1" "c1", ConnOp.bind "u1" "c2", ConnOp.unbind "c1"]) ∧
    (mapGet (applyConnOps sConn0 10
        [ConnOp.bind "u1" "c1", ConnOp.bind "u1" "c2",
         ConnOp.unbind "c1"]).rooms "R1").map
      (fun r => (mapGet r.users "u1").map User.connected)
      = some (some true) ∧
    (mapGet (applyConnOps sConn0 10
        [ConnOp.bind "u1" "c1", ConnOp.bind "u1" "c2", ConnOp.unbind "c1",
         ConnOp.unbind "c2"]).rooms "R1").map
      (fun r => (mapGet r.users "u1").map User.connected)
      = some (some false) :=
  ⟨(connection_invariant sConn0 10
      [ConnOp.bind "u1" "c1", ConnOp.bind "u1" "c2", ConnOp.unbind "c1"]
      (by decide) (by decide) (by decide)).1,
   by decide, by decide⟩

end PokerStore
